import Mathlib

/-!
# Verification of the meta-compactor tree model

Shallow embedding of `meta-compactor.py`: an in-memory tree of file /
directory / link nodes, the duplicate-detection pass (`prune_children`),
the destructive marker application (`apply_changes`) and the
reconstruction pass (`restore`), together with the indexer
(`index_directory`) that builds the tree from a filesystem.

Modelling conventions:
* File contents are byte lists (`List Nat`); paths are name lists joined
  root-to-leaf, exactly as `Pathable.path` joins ancestor names.
* The filesystem is an association list from paths to contents; reads
  find the first matching path, writes replace in place (creating the
  entry when absent, as `open(path, "wb")` does), `os.remove` deletes
  the entry.
* SHA-256 is idealized as an injective function of the content with a
  non-empty output (a real digest is a fixed 32-byte string, hence
  never falsy in `if not self._checksum`); collision-freeness is the
  standard idealization under which content-hash deduplication is
  byte-exact.
* In-place mutation of the tree and of the `checksum_values` dict is
  translated to explicit state passing; Python exceptions
  (`AssertionError` from `FileLink.__init__`, `FileNotFoundError`/
  `NotImplementedError`) become `Option`/success flags.
* `File.checksum` is computed lazily from disk, but the disk does not
  change between indexing and pruning, so the pipeline embedding stores
  each file node's digest directly; the lazy memoized attribute itself
  is modelled separately (`FileState` / `checksum`) for the claims about
  it.
-/

abbrev Content := List Nat
abbrev FsPath := List String
abbrev Digest := List Nat
abbrev FS := List (FsPath × Content)

/-- `__SIGNATURE__ = b'METACOMPACTOR-REPLACEMENT-FILE'` (30 ASCII bytes). -/
def SIGNATURE : Content :=
  [77, 69, 84, 65, 67, 79, 77, 80, 65, 67, 84, 79, 82, 45,
   82, 69, 80, 76, 65, 67, 69, 77, 69, 78, 84, 45, 70, 73, 76, 69]

/-- `hashlib.sha256` digest of a byte string, idealized as an injective
function with non-empty output (a real digest is 32 bytes, never empty). -/
def sha256d (c : Content) : Digest := 1 :: c

/-- The in-memory tree: `File`, `Directory` and `FileLink` nodes
(the closed set of `Pathable` subclasses).  A node's path is its parent
chain's names followed by its own name; the embedding recomputes it from
the position in the tree, which never changes after construction.
`link name checksum replacement` is a `FileLink`: it keeps the replaced
file's name (hence path) and checksum and stores the canonical file's
path (`self.replacement = replacement.path`). -/
inductive Node where
  | file (name : String) (checksum : Digest)
  | dir (name : String) (children : List Node)
  | link (name : String) (checksum : Digest) (replacement : FsPath)
deriving Repr

mutual

def decEqNode : (a b : Node) → Decidable (a = b)
  | .file n c, .file n' c' =>
    if h1 : n = n' then
      if h2 : c = c' then isTrue (by rw [h1, h2])
      else isFalse (fun h => by cases h; exact h2 rfl)
    else isFalse (fun h => by cases h; exact h1 rfl)
  | .dir n cs, .dir n' cs' =>
    if h1 : n = n' then
      match decEqNodeL cs cs' with
      | isTrue h2 => isTrue (by rw [h1, h2])
      | isFalse h2 => isFalse (fun h => by cases h; exact h2 rfl)
    else isFalse (fun h => by cases h; exact h1 rfl)
  | .link n c r, .link n' c' r' =>
    if h1 : n = n' then
      if h2 : c = c' then
        if h3 : r = r' then isTrue (by rw [h1, h2, h3])
        else isFalse (fun h => by cases h; exact h3 rfl)
      else isFalse (fun h => by cases h; exact h2 rfl)
    else isFalse (fun h => by cases h; exact h1 rfl)
  | .file _ _, .dir _ _ => isFalse (fun h => Node.noConfusion h)
  | .file _ _, .link _ _ _ => isFalse (fun h => Node.noConfusion h)
  | .dir _ _, .file _ _ => isFalse (fun h => Node.noConfusion h)
  | .dir _ _, .link _ _ _ => isFalse (fun h => Node.noConfusion h)
  | .link _ _ _, .file _ _ => isFalse (fun h => Node.noConfusion h)
  | .link _ _ _, .dir _ _ => isFalse (fun h => Node.noConfusion h)

def decEqNodeL : (as bs : List Node) → Decidable (as = bs)
  | [], [] => isTrue rfl
  | [], _ :: _ => isFalse (fun h => List.noConfusion h)
  | _ :: _, [] => isFalse (fun h => List.noConfusion h)
  | a :: as, b :: bs =>
    match decEqNode a b with
    | isTrue h1 =>
      match decEqNodeL as bs with
      | isTrue h2 => isTrue (by rw [h1, h2])
      | isFalse h2 => isFalse (fun h => by cases h; exact h2 rfl)
    | isFalse h1 => isFalse (fun h => by cases h; exact h1 rfl)

end

instance : DecidableEq Node := decEqNode

def Node.name : Node → String
  | .file n _ => n
  | .dir n _ => n
  | .link n _ _ => n

def Node.isFile : Node → Bool
  | .file _ _ => true
  | _ => false

def Node.isDir : Node → Bool
  | .dir _ _ => true
  | _ => false

def Node.isLink : Node → Bool
  | .link _ _ _ => true
  | _ => false

/-- `Directory.file_children`: `[x for x in self.children if isinstance(x, File)]`. -/
def file_children (cs : List Node) : List Node := cs.filter Node.isFile

/-- `Directory.directory_children`: the `Directory` instances among the children. -/
def directory_children (cs : List Node) : List Node := cs.filter Node.isDir

/-- `Directory.prune_child`: `self.children = [x for x in self.children if x is not child]`.
Object identity is modelled by value equality; the pruning theorems assume
sibling names are distinct (true of every indexed tree), under which the
two coincide. -/
def prune_child (cs : List Node) (child : Node) : List Node :=
  cs.filter (fun x => decide (x ≠ child))

/-- The `checksum_values` dict: checksum → the registered canonical `File`
node, of which the pass uses only `.path` and `.checksum`. -/
abbrev Reg := List (Digest × (FsPath × Digest))

def regFind (reg : Reg) (k : Digest) : Option (FsPath × Digest) :=
  match reg with
  | [] => none
  | (k', v) :: rest => if k' = k then some v else regFind rest k

/-- Every registry value records the checksum it is keyed under (true of
every dict the program ever builds: `checksum_values[child.checksum] = child`). -/
def wfReg (reg : Reg) : Prop := ∀ e ∈ reg, e.2.2 = e.1

/-- `FileLink.__init__(original, replacement)`: takes the original's name and
parent, asserts `original.checksum == replacement.checksum` (an
`AssertionError` — fatal, modelled as `none`), and stores
`replacement.path` and the shared checksum. -/
def mkFileLink (original : Node) (canon : FsPath × Digest) : Option Node :=
  match original with
  | .file n ck => if ck = canon.2 then some (.link n ck canon.1) else none
  | .dir _ _ => none
  | .link _ _ _ => none

/-- `Directory.replace_child`: `self.prune_child(child)` then
`self.children.append(FileLink(child, replacement))`. -/
def replace_child (cs : List Node) (child : Node) (canon : FsPath × Digest) :
    Option (List Node) := do
  let l ← mkFileLink child canon
  some (prune_child cs child ++ [l])

/-- The first loop of `Directory.prune_children`: iterate over the snapshot
`self.file_children` (`todo`); a file whose checksum is registered is
replaced by a link to the registered canonical node, otherwise it is
registered under its own checksum.  `selfPath` is the directory's path, so
a child's path is `selfPath ++ [name]`. -/
def prune_files (selfPath : FsPath) (todo : List Node) (cs : List Node)
    (reg : Reg) : Option (List Node × Reg) :=
  match todo with
  | [] => some (cs, reg)
  | .file n ck :: rest =>
    match regFind reg ck with
    | some canon => do
      let cs' ← replace_child cs (.file n ck) canon
      prune_files selfPath rest cs' reg
    | none => prune_files selfPath rest cs (reg ++ [(ck, (selfPath ++ [n], ck))])
  | .dir _ _ :: rest => prune_files selfPath rest cs reg
  | .link _ _ _ :: rest => prune_files selfPath rest cs reg

/-- Re-assemble a child list after the recursive descent: the directory
children were mutated in place, so each directory in `cs` is replaced, at
its position, by its pruned version from `ds` (in order).  Non-directory
children are untouched. -/
def subst_dirs : List Node → List Node → List Node
  | [], _ => []
  | .dir _ _ :: rest, d :: ds => d :: subst_dirs rest ds
  | .dir n k :: rest, [] => .dir n k :: subst_dirs rest []
  | .file n ck :: rest, ds => .file n ck :: subst_dirs rest ds
  | .link n ck r :: rest, ds => .link n ck r :: subst_dirs rest ds

mutual

/-- `Directory.prune_children(checksum_values)`: first the file-children
loop, then recursion into the directory children, threading the same
registry.  On a non-directory node the method does not exist / is never
called; the embedding returns the node unchanged.  `pfx` is the parent
path, so the directory's own path is `pfx ++ [name]`. -/
def prune_children (pfx : FsPath) (t : Node) (reg : Reg) : Option (Node × Reg) :=
  match t with
  | .dir n cs => do
    let p := pfx ++ [n]
    let (cs1, r1) ← prune_files p (file_children cs) cs reg
    let (ds, r2) ← prune_dirs p cs r1
    some (.dir n (subst_dirs cs1 ds), r2)
  | .file n ck => some (.file n ck, reg)
  | .link n ck r => some (.link n ck r, reg)

/-- The second loop of `prune_children`: `for child in self.directory_children:
child.prune_children(checksum_values)`.  The file phase leaves directory
children untouched, so iterating the original children and skipping
non-directories visits exactly the snapshot the program takes.  Returns the
pruned directory children in order. -/
def prune_dirs (pfx : FsPath) (cs : List Node) (reg : Reg) :
    Option (List Node × Reg) :=
  match cs with
  | [] => some ([], reg)
  | .dir n k :: rest => do
    let (d', r1) ← prune_children pfx (.dir n k) reg
    let (ds, r2) ← prune_dirs pfx rest r1
    some (d' :: ds, r2)
  | .file _ _ :: rest => prune_dirs pfx rest reg
  | .link _ _ _ :: rest => prune_dirs pfx rest reg

end

/-- Python evaluates the default argument `checksum_values={}` once, at
function definition time; every top-level call that omits the argument
receives that same dict object, including all mutations earlier calls left
in it.  The process-level state is the dict's current value: it starts
empty when the process starts and each defaulted call threads it. -/
def prune_children_default (t : Node) (procReg : Reg) : Option (Node × Reg) :=
  prune_children [] t procReg

/-! ## Collections of reachable nodes

`fileEntries` lists the `(path, checksum)` of every reachable `File` node
of a directory-rooted tree, in the deduplicator's processing order
(depth first, the directory's own file children before its subdirectory
children).  `linkEntries` lists every reachable `FileLink` as
`(path, checksum, replacement)`. -/

def files_of (p : FsPath) (cs : List Node) : List (FsPath × Digest) :=
  cs.filterMap (fun c => match c with
    | .file n ck => some (p ++ [n], ck)
    | _ => none)

def links_of (p : FsPath) (cs : List Node) : List (FsPath × Digest × FsPath) :=
  cs.filterMap (fun c => match c with
    | .link n ck r => some (p ++ [n], ck, r)
    | _ => none)

mutual

def fileEntries (pfx : FsPath) (t : Node) : List (FsPath × Digest) :=
  match t with
  | .dir n cs => files_of (pfx ++ [n]) cs ++ fileEntriesL (pfx ++ [n]) cs
  | _ => []

def fileEntriesL (pfx : FsPath) (cs : List Node) : List (FsPath × Digest) :=
  match cs with
  | [] => []
  | c :: rest => fileEntries pfx c ++ fileEntriesL pfx rest

end

mutual

def linkEntries (pfx : FsPath) (t : Node) : List (FsPath × Digest × FsPath) :=
  match t with
  | .dir n cs => links_of (pfx ++ [n]) cs ++ linkEntriesL (pfx ++ [n]) cs
  | _ => []

def linkEntriesL (pfx : FsPath) (cs : List Node) : List (FsPath × Digest × FsPath) :=
  match cs with
  | [] => []
  | c :: rest => linkEntries pfx c ++ linkEntriesL pfx rest

end

/-- The registry a pruning pass leaves behind, computed directly from the
file enumeration: each checksum is registered with the path of its first
occurrence, later occurrences change nothing. -/
def specFold (reg : Reg) : List (FsPath × Digest) → Reg
  | [] => reg
  | (p, ck) :: rest =>
    match regFind reg ck with
    | some _ => specFold reg rest
    | none => specFold (reg ++ [(ck, (p, ck))]) rest

/-- Path of the first file with checksum `ck` in enumeration order. -/
def firstOccPath (es : List (FsPath × Digest)) (ck : Digest) : Option FsPath :=
  (es.find? (fun e => decide (e.2 = ck))).map (·.1)

/-! ## Well-formedness of trees -/

mutual

/-- Within every directory of the tree, the children's names are pairwise
distinct (true of every indexed tree: `iterdir` yields distinct names). -/
def nodupNames : Node → Bool
  | .dir _ cs => decide ((cs.map Node.name).Nodup) && nodupNamesL cs
  | .file _ _ => true
  | .link _ _ _ => true

def nodupNamesL : List Node → Bool
  | [] => true
  | c :: rest => nodupNames c && nodupNamesL rest

end

mutual

/-- The tree contains no `FileLink` node (true of every freshly indexed tree). -/
def noLinks : Node → Bool
  | .dir _ cs => noLinksL cs
  | .link _ _ _ => false
  | .file _ _ => true

def noLinksL : List Node → Bool
  | [] => true
  | c :: rest => noLinks c && noLinksL rest

end

/-! ## The filesystem

An association list from paths to file contents.  `fsRead` is `open(p,
"rb").read()`, `fsRemove` is `os.remove`, `fsWrite` is `open(p, "wb")`
followed by writing `c` (creating the file when absent, replacing its
content when present). -/

def fsRead (fs : FS) (p : FsPath) : Option Content :=
  match fs with
  | [] => none
  | (q, c) :: rest => if q = p then some c else fsRead rest p

def fsRemove (fs : FS) (p : FsPath) : FS :=
  match fs with
  | [] => []
  | (q, c) :: rest => if q = p then fsRemove rest p else (q, c) :: fsRemove rest p

def fsWrite (fs : FS) (p : FsPath) (c : Content) : FS :=
  match fs with
  | [] => [(p, c)]
  | (q, c') :: rest => if q = p then (p, c) :: rest else (q, c') :: fsWrite rest p c

/-- A mutation `apply_changes` performs on the filesystem. -/
inductive Mut where
  | removed (p : FsPath)
  | wrote (p : FsPath) (c : Content)
deriving DecidableEq, Repr

/-- The `FileLink` branch of `apply_changes`, at the link's path `p`:
read the first `len(__SIGNATURE__)` bytes (a missing file raises — flag
`false`); if they equal the signature do nothing, otherwise
`os.remove(p)` and write a fresh file holding only the signature. -/
def apply_link (p : FsPath) (fs : FS) : FS × List Mut × Bool :=
  match fsRead fs p with
  | none => (fs, [], false)
  | some content =>
    if content.take SIGNATURE.length = SIGNATURE then (fs, [], true)
    else (fsWrite (fsRemove fs p) p SIGNATURE,
      [.removed p, .wrote p SIGNATURE], true)

mutual

/-- `Directory.apply_changes`: one pass over `self.children`, dispatching
on the child's kind: links are rewritten to marker stubs via `apply_link`,
files ignored, directories recursed into.  An exception aborts the walk:
the flag is `false` and the returned filesystem is the state reached. -/
def apply_changes (pfx : FsPath) (t : Node) (fs : FS) : FS × List Mut × Bool :=
  match t with
  | .dir n cs => apply_changes_list (pfx ++ [n]) cs fs
  | _ => (fs, [], true)

def apply_changes_list (p : FsPath) (cs : List Node) (fs : FS) :
    FS × List Mut × Bool :=
  match cs with
  | [] => (fs, [], true)
  | .link n _ _ :: rest =>
    let (fs1, m1, ok) := apply_link (p ++ [n]) fs
    if ok then
      let (fs2, m2, ok2) := apply_changes_list p rest fs1
      (fs2, m1 ++ m2, ok2)
    else (fs1, m1, false)
  | .file _ _ :: rest => apply_changes_list p rest fs
  | .dir n k :: rest =>
    let (fs1, m1, ok) := apply_changes p (.dir n k) fs
    if ok then
      let (fs2, m2, ok2) := apply_changes_list p rest fs1
      (fs2, m1 ++ m2, ok2)
    else (fs1, m1, false)

end

/-- The link loop of `Directory.restore`: for each `FileLink` child,
`open(child.path, "wb")` (truncating the file first), then stream the
canonical file `child.replacement` into it; a missing canonical file
raises after the truncation already happened. -/
def restore_links (p : FsPath) (cs : List Node) (fs : FS) : FS × Bool :=
  match cs with
  | [] => (fs, true)
  | .link n _ r :: rest =>
    let fs0 := fsWrite fs (p ++ [n]) []
    match fsRead fs0 r with
    | none => (fs0, false)
    | some c => restore_links p rest (fsWrite fs0 (p ++ [n]) c)
  | .file _ _ :: rest => restore_links p rest fs
  | .dir _ _ :: rest => restore_links p rest fs

mutual

/-- `Directory.restore`: restore this directory's link children, then
recurse into its directory children. -/
def restore (pfx : FsPath) (t : Node) (fs : FS) : FS × Bool :=
  match t with
  | .dir n cs =>
    let p := pfx ++ [n]
    let (fs1, ok) := restore_links p cs fs
    if ok then restore_dirs p cs fs1 else (fs1, false)
  | _ => (fs, true)

def restore_dirs (p : FsPath) (cs : List Node) (fs : FS) : FS × Bool :=
  match cs with
  | [] => (fs, true)
  | .dir n k :: rest =>
    let (fs1, ok) := restore p (.dir n k) fs
    if ok then restore_dirs p rest fs1 else (fs1, false)
  | .file _ _ :: rest => restore_dirs p rest fs
  | .link _ _ _ :: rest => restore_dirs p rest fs

end

/-! ## The indexer

A filesystem entry as `index_directory` classifies it.  `pathlib`'s
`is_file()`/`is_dir()` follow symlinks: a symlink whose target is a
regular file satisfies `is_file()`, one whose target is a directory
satisfies `is_dir()`.  `other` is everything satisfying neither (devices,
fifos, sockets, broken symlinks). -/

inductive Entry where
  | file (content : Content)
  | dir (entries : List (String × Entry))
  | symlinkFile (content : Content)
  | symlinkDir (entries : List (String × Entry))
  | other
deriving Repr

mutual

/-- `index_directory(root, parent)`: a `File` node if `root.is_file()`, a
recursively populated `Directory` node if `root.is_dir()`, otherwise
`raise NotImplementedError` (modelled `none`).  The file node's checksum
is the digest its lazy `File.checksum` computes from the unchanged disk. -/
def index_directory (name : String) (e : Entry) : Option Node :=
  match e with
  | .file c => some (.file name (sha256d c))
  | .symlinkFile c => some (.file name (sha256d c))
  | .dir es =>
    match index_children es with
    | some cs => some (.dir name cs)
    | none => none
  | .symlinkDir es =>
    match index_children es with
    | some cs => some (.dir name cs)
    | none => none
  | .other => none

/-- `[index_directory(sub, directory) for sub in root.iterdir()]`: indexes
the entries in enumeration order; the first failure aborts the whole
comprehension. -/
def index_children : List (String × Entry) → Option (List Node)
  | [] => some []
  | (n, e) :: rest =>
    match index_directory n e with
    | none => none
    | some c =>
      match index_children rest with
      | none => none
      | some cs => some (c :: cs)

end

mutual

/-- The on-disk files of an entry tree, as path/content pairs. -/
def entry_files (pfx : FsPath) (name : String) (e : Entry) : FS :=
  match e with
  | .file c => [(pfx ++ [name], c)]
  | .symlinkFile c => [(pfx ++ [name], c)]
  | .dir es => entry_files_list (pfx ++ [name]) es
  | .symlinkDir es => entry_files_list (pfx ++ [name]) es
  | .other => []

def entry_files_list (pfx : FsPath) : List (String × Entry) → FS
  | [] => []
  | (n, e) :: rest => entry_files pfx n e ++ entry_files_list pfx rest

end

mutual

/-- The entry is a tree of regular files and directories only. -/
def plainTree : Entry → Bool
  | .file _ => true
  | .dir es => plainTreeL es
  | .symlinkFile _ => false
  | .symlinkDir _ => false
  | .other => false

def plainTreeL : List (String × Entry) → Bool
  | [] => true
  | (_, e) :: rest => plainTree e && plainTreeL rest

end

mutual

/-- Within every directory of the entry tree the entry names are pairwise
distinct, as they are in a real directory listing. -/
def uniqueNamesE : Entry → Bool
  | .dir es => decide ((es.map Prod.fst).Nodup) && uniqueNamesL es
  | .symlinkDir es => decide ((es.map Prod.fst).Nodup) && uniqueNamesL es
  | .file _ => true
  | .symlinkFile _ => true
  | .other => true

def uniqueNamesL : List (String × Entry) → Bool
  | [] => true
  | (_, e) :: rest => uniqueNamesE e && uniqueNamesL rest

end

def Entry.isDirE : Entry → Bool
  | .dir _ => true
  | .symlinkDir _ => true
  | .file _ => false
  | .symlinkFile _ => false
  | .other => false

mutual

/-- The entry tree contains something that is neither a regular file nor a
directory, even after following symlinks. -/
def containsOther : Entry → Bool
  | .other => true
  | .dir es => containsOtherL es
  | .symlinkDir es => containsOtherL es
  | .file _ => false
  | .symlinkFile _ => false

def containsOtherL : List (String × Entry) → Bool
  | [] => false
  | (_, e) :: rest => containsOther e || containsOtherL rest

end

/-- The checksum a file or link node carries (`Directory` has none; the
accessor is never used on one and returns a junk value there). -/
def Node.checksum : Node → Digest
  | .file _ ck => ck
  | .link _ ck _ => ck
  | .dir _ _ => []

/-- Specification of the file-children loop, computed outcome by outcome:
returns the kept (first-occurrence) file nodes, the link nodes created for
the found (duplicate) files, in order, and the final registry. -/
def fileOutcomes (p : FsPath) (reg : Reg) : List Node → List Node × List Node × Reg
  | [] => ([], [], reg)
  | .file n ck :: rest =>
    match regFind reg ck with
    | some canon =>
      ((fileOutcomes p reg rest).1,
       .link n ck canon.1 :: (fileOutcomes p reg rest).2.1,
       (fileOutcomes p reg rest).2.2)
    | none =>
      (.file n ck :: (fileOutcomes p (reg ++ [(ck, (p ++ [n], ck))]) rest).1,
       (fileOutcomes p (reg ++ [(ck, (p ++ [n], ck))]) rest).2.1,
       (fileOutcomes p (reg ++ [(ck, (p ++ [n], ck))]) rest).2.2)
  | .dir _ _ :: rest => fileOutcomes p reg rest
  | .link _ _ _ :: rest => fileOutcomes p reg rest

/-- The file nodes a list of created links replaced: a link keeps its
original's name and checksum, so the originals are recoverable. -/
def linkOriginals (ls : List Node) : List Node :=
  ls.map (fun l => .file (Node.name l) (Node.checksum l))

/-- All paths at which the tree claims a filesystem object it reads or
writes: the paths of its file nodes and of its link nodes. -/
def entryPaths (pfx : FsPath) (t : Node) : List FsPath :=
  (fileEntries pfx t).map Prod.fst ++ (linkEntries pfx t).map Prod.fst

def entryPathsL (pfx : FsPath) (cs : List Node) : List FsPath :=
  (fileEntriesL pfx cs).map Prod.fst ++ (linkEntriesL pfx cs).map Prod.fst

/-- All paths claimed by the children of a directory whose own path is
`p`: its file children, its link children, and, recursively, the contents
of its directory children. -/
def dirPaths (p : FsPath) (cs : List Node) : List FsPath :=
  (files_of p cs).map Prod.fst ++ (links_of p cs).map Prod.fst ++ entryPathsL p cs

/-! ## The lazy, memoized `File.checksum` -/

/-- The mutable state of a `File` node: its path and the `_checksum`
attribute, `None` until first computed. -/
structure FileState where
  path : FsPath
  cache : Option Digest
deriving DecidableEq, Repr

/-- `not self._checksum`: true for `None` and for falsy (empty) bytes. -/
def digestFalsy : Option Digest → Bool
  | none => true
  | some d => d.isEmpty

/-- The `File.checksum` property: if `_checksum` is falsy, read the file
(a missing file raises — `none`), hash it, store the digest; then return
the stored digest.  Returns the digest and the updated node state. -/
def checksum (fs : FS) (f : FileState) : Option (Digest × FileState) :=
  if digestFalsy f.cache then
    match fsRead fs f.path with
    | none => none
    | some content =>
      some (sha256d content, { f with cache := some (sha256d content) })
  else
    match f.cache with
    | some d => some (d, f)
    | none => none

/-! # Theorems -/

theorem sha256d_inj {a b : Content} (h : sha256d a = sha256d b) : a = b := by
  simpa [sha256d] using h

theorem sha256d_ne_nil (c : Content) : sha256d c ≠ [] := by simp [sha256d]

/-! ## Association-list filesystem lemmas -/

theorem fsRead_cons (a : FsPath) (c : Content) (rest : FS) (q : FsPath) :
    fsRead ((a, c) :: rest) q = if a = q then some c else fsRead rest q := rfl

theorem fsRead_fsRemove (fs : FS) (p q : FsPath) :
    fsRead (fsRemove fs p) q = if q = p then none else fsRead fs q := by
  induction fs with
  | nil => simp [fsRemove, fsRead]
  | cons e rest ih =>
    obtain ⟨a, c⟩ := e
    unfold fsRemove
    by_cases hap : a = p
    · rw [if_pos hap, ih]
      by_cases hq : q = p
      · simp [hq]
      · have haq : a ≠ q := fun h => hq ((h.symm.trans hap))
        simp [hq, fsRead_cons, haq]
    · rw [if_neg hap, fsRead_cons, fsRead_cons]
      by_cases haq : a = q
      · have hq : ¬ q = p := fun h => hap (haq.trans h)
        simp [haq, hq]
      · simp [haq, ih]

theorem fsRead_fsWrite (fs : FS) (p : FsPath) (c : Content) (q : FsPath) :
    fsRead (fsWrite fs p c) q = if q = p then some c else fsRead fs q := by
  induction fs with
  | nil =>
    by_cases hq : q = p
    · simp [fsWrite, fsRead_cons, hq]
    · have : p ≠ q := fun h => hq h.symm
      simp [fsWrite, fsRead_cons, hq, this, fsRead]
  | cons e rest ih =>
    obtain ⟨a, c'⟩ := e
    unfold fsWrite
    by_cases hap : a = p
    · rw [if_pos hap, fsRead_cons, fsRead_cons]
      by_cases hq : q = p
      · simp [hq]
      · have hpq : ¬ p = q := fun h => hq h.symm
        have haq : ¬ a = q := fun h => hq ((h.symm.trans hap))
        simp [hpq, haq, hq]
    · rw [if_neg hap, fsRead_cons, fsRead_cons]
      by_cases haq : a = q
      · have hq : ¬ q = p := fun h => hap (haq.trans h)
        simp [haq, hq]
      · simp [haq, ih]

/-! ## C8: checksum memoization and content-determinism -/

/-- C8: repeated checksum queries on the same File node return the identical
digest — the hash is computed once and cached — and byte-identical contents
yield the identical digest regardless of path or name. -/
theorem checksum_stable :
    (∀ (fs : FS) (f : FileState) (d : Digest) (f' : FileState),
        checksum fs f = some (d, f') → checksum fs f' = some (d, f')) ∧
    (∀ (fs₁ fs₂ : FS) (f₁ f₂ : FileState) (c : Content) (r₁ r₂ : Digest × FileState),
        f₁.cache = none → f₂.cache = none →
        fsRead fs₁ f₁.path = some c → fsRead fs₂ f₂.path = some c →
        checksum fs₁ f₁ = some r₁ → checksum fs₂ f₂ = some r₂ → r₁.1 = r₂.1) := by
  constructor
  · intro fs f d f' h
    unfold checksum at h ⊢
    by_cases hf : digestFalsy f.cache = true
    · simp only [hf, if_true] at h
      cases hr : fsRead fs f.path with
      | none => rw [hr] at h; exact absurd h (by simp)
      | some content =>
        rw [hr] at h
        simp only [Option.some_inj, Prod.mk.injEq] at h
        obtain ⟨hd, hf'⟩ := h
        have hcache : f'.cache = some (sha256d content) := by rw [← hf']
        have : digestFalsy f'.cache = false := by
          rw [hcache]; simp [digestFalsy, sha256d]
        simp [this, hcache, ← hd, ← hf']
        intro _
        rw [hr]
    · simp only [Bool.not_eq_true] at hf
      simp only [hf, Bool.false_eq_true, if_false] at h
      cases hc : f.cache with
      | none => rw [hc] at h; exact absurd h (by simp)
      | some d₀ =>
        rw [hc] at h
        simp only [Option.some_inj, Prod.mk.injEq] at h
        obtain ⟨hd, hf'⟩ := h
        subst hf'
        simp [hf, hc, hd]
        intro hcontra
        rw [hc, hd] at hf
        rw [hf] at hcontra
        cases hcontra
  · intro fs₁ fs₂ f₁ f₂ c r₁ r₂ h₁ h₂ hr₁ hr₂ hc₁ hc₂
    unfold checksum at hc₁ hc₂
    have hf₁ : digestFalsy f₁.cache = true := by rw [h₁]; rfl
    have hf₂ : digestFalsy f₂.cache = true := by rw [h₂]; rfl
    rw [hf₁, if_pos rfl, hr₁] at hc₁
    rw [hf₂, if_pos rfl, hr₂] at hc₂
    simp only [Option.some_inj] at hc₁ hc₂
    rw [← hc₁, ← hc₂]

/-- Witness for `checksum_stable` at a concrete file: the first query
computes and caches the digest, the second returns the identical digest. -/
theorem checksum_stable_witness :
    checksum [(["p"], [5])] ⟨["p"], some [1, 5]⟩ = some ([1, 5], ⟨["p"], some [1, 5]⟩) :=
  checksum_stable.1 [(["p"], [5])] ⟨["p"], none⟩ [1, 5] ⟨["p"], some [1, 5]⟩ (by decide)

/-! ## Equations for the entry-collection functions -/

theorem files_of_nil (p : FsPath) : files_of p [] = [] := rfl

theorem files_of_cons_file (p : FsPath) (n : String) (ck : Digest) (rest : List Node) :
    files_of p (.file n ck :: rest) = (p ++ [n], ck) :: files_of p rest := rfl

theorem files_of_cons_dir (p : FsPath) (n : String) (k : List Node) (rest : List Node) :
    files_of p (.dir n k :: rest) = files_of p rest := rfl

theorem files_of_cons_link (p : FsPath) (n : String) (ck : Digest) (r : FsPath)
    (rest : List Node) : files_of p (.link n ck r :: rest) = files_of p rest := rfl

theorem links_of_nil (p : FsPath) : links_of p [] = [] := rfl

theorem links_of_cons_file (p : FsPath) (n : String) (ck : Digest) (rest : List Node) :
    links_of p (.file n ck :: rest) = links_of p rest := rfl

theorem links_of_cons_dir (p : FsPath) (n : String) (k : List Node) (rest : List Node) :
    links_of p (.dir n k :: rest) = links_of p rest := rfl

theorem links_of_cons_link (p : FsPath) (n : String) (ck : Digest) (r : FsPath)
    (rest : List Node) :
    links_of p (.link n ck r :: rest) = (p ++ [n], ck, r) :: links_of p rest := rfl

theorem fileEntries_file (pfx : FsPath) (n : String) (ck : Digest) :
    fileEntries pfx (.file n ck) = [] := by
  rw [fileEntries]
  exact fun _ _ h => Node.noConfusion h

theorem fileEntries_link (pfx : FsPath) (n : String) (ck : Digest) (r : FsPath) :
    fileEntries pfx (.link n ck r) = [] := by
  rw [fileEntries]
  exact fun _ _ h => Node.noConfusion h

theorem fileEntries_dir (pfx : FsPath) (n : String) (cs : List Node) :
    fileEntries pfx (.dir n cs) =
      files_of (pfx ++ [n]) cs ++ fileEntriesL (pfx ++ [n]) cs := by rw [fileEntries]

theorem fileEntriesL_nil (pfx : FsPath) : fileEntriesL pfx [] = [] := by rw [fileEntriesL]

theorem fileEntriesL_cons (pfx : FsPath) (c : Node) (rest : List Node) :
    fileEntriesL pfx (c :: rest) = fileEntries pfx c ++ fileEntriesL pfx rest := by
  rw [fileEntriesL]

theorem linkEntries_file (pfx : FsPath) (n : String) (ck : Digest) :
    linkEntries pfx (.file n ck) = [] := by
  rw [linkEntries]
  exact fun _ _ h => Node.noConfusion h

theorem linkEntries_link (pfx : FsPath) (n : String) (ck : Digest) (r : FsPath) :
    linkEntries pfx (.link n ck r) = [] := by
  rw [linkEntries]
  exact fun _ _ h => Node.noConfusion h

theorem linkEntries_dir (pfx : FsPath) (n : String) (cs : List Node) :
    linkEntries pfx (.dir n cs) =
      links_of (pfx ++ [n]) cs ++ linkEntriesL (pfx ++ [n]) cs := by rw [linkEntries]

theorem linkEntriesL_nil (pfx : FsPath) : linkEntriesL pfx [] = [] := by rw [linkEntriesL]

theorem linkEntriesL_cons (pfx : FsPath) (c : Node) (rest : List Node) :
    linkEntriesL pfx (c :: rest) = linkEntries pfx c ++ linkEntriesL pfx rest := by
  rw [linkEntriesL]

/-! ## `apply_changes` lemmas -/

theorem SIGNATURE_take : SIGNATURE.take SIGNATURE.length = SIGNATURE :=
  List.take_length SIGNATURE

theorem apply_link_write_read (fs : FS) (p q : FsPath) :
    fsRead (fsWrite (fsRemove fs p) p SIGNATURE) q =
      if q = p then some SIGNATURE else fsRead fs q := by
  rw [fsRead_fsWrite, fsRead_fsRemove]
  by_cases hq : q = p <;> simp [hq]

theorem apply_link_cases (p : FsPath) (fs : FS) :
    (fsRead fs p = none ∧ apply_link p fs = (fs, [], false)) ∨
    (∃ c, fsRead fs p = some c ∧
      ((apply_link p fs = (fs, [], true) ∧ c.take SIGNATURE.length = SIGNATURE) ∨
       (apply_link p fs = (fsWrite (fsRemove fs p) p SIGNATURE,
          [.removed p, .wrote p SIGNATURE], true) ∧
        c.take SIGNATURE.length ≠ SIGNATURE))) := by
  unfold apply_link
  cases hr : fsRead fs p with
  | none => exact Or.inl ⟨rfl, rfl⟩
  | some c =>
    refine Or.inr ⟨c, rfl, ?_⟩
    by_cases hm : c.take SIGNATURE.length = SIGNATURE
    · exact Or.inl ⟨by simp [hm], hm⟩
    · exact Or.inr ⟨by simp [hm], hm⟩

theorem apply_changes_list_cons_dir (p : FsPath) (n : String) (k rest : List Node)
    (fs : FS) :
    apply_changes_list p (.dir n k :: rest) fs =
      if (apply_changes p (.dir n k) fs).2.2 then
        ((apply_changes_list p rest (apply_changes p (.dir n k) fs).1).1,
         (apply_changes p (.dir n k) fs).2.1 ++
           (apply_changes_list p rest (apply_changes p (.dir n k) fs).1).2.1,
         (apply_changes_list p rest (apply_changes p (.dir n k) fs).1).2.2)
      else ((apply_changes p (.dir n k) fs).1,
        (apply_changes p (.dir n k) fs).2.1, false) := by
  rw [apply_changes_list]

mutual

theorem apply_spec (pfx : FsPath) (t : Node) (fs : FS) :
    (∀ q, (∀ e ∈ linkEntries pfx t, q ≠ e.1) →
        fsRead (apply_changes pfx t fs).1 q = fsRead fs q) ∧
    (∀ q, fsRead (apply_changes pfx t fs).1 q = fsRead fs q ∨
        fsRead (apply_changes pfx t fs).1 q = some SIGNATURE) ∧
    ((∀ e ∈ linkEntries pfx t, fsRead fs e.1 ≠ none) →
        (apply_changes pfx t fs).2.2 = true ∧
        ∀ e ∈ linkEntries pfx t, ∃ c,
          fsRead (apply_changes pfx t fs).1 e.1 = some c ∧
          c.take SIGNATURE.length = SIGNATURE) ∧
    ((∀ e ∈ linkEntries pfx t, ∃ c, fsRead fs e.1 = some c ∧
        c.take SIGNATURE.length = SIGNATURE) →
        apply_changes pfx t fs = (fs, [], true)) ∧
    (∀ q, fsRead fs q = none → fsRead (apply_changes pfx t fs).1 q = none) :=
  match t with
  | .dir n cs => by
    have e1 : apply_changes pfx (.dir n cs) fs = apply_changes_list (pfx ++ [n]) cs fs := by
      rw [apply_changes]
    rw [e1, linkEntries_dir]
    exact apply_spec_list (pfx ++ [n]) cs fs
  | .file n ck => by
    have e1 : apply_changes pfx (.file n ck) fs = (fs, [], true) := by
      rw [apply_changes]
      exact fun _ _ h => Node.noConfusion h
    rw [e1, linkEntries_file]
    exact ⟨fun q _ => rfl, fun q => Or.inl rfl,
      fun _ => ⟨rfl, fun e he => absurd he (List.not_mem_nil e)⟩,
      fun _ => rfl, fun q hq => hq⟩
  | .link n ck r => by
    have e1 : apply_changes pfx (.link n ck r) fs = (fs, [], true) := by
      rw [apply_changes]
      exact fun _ _ h => Node.noConfusion h
    rw [e1, linkEntries_link]
    exact ⟨fun q _ => rfl, fun q => Or.inl rfl,
      fun _ => ⟨rfl, fun e he => absurd he (List.not_mem_nil e)⟩,
      fun _ => rfl, fun q hq => hq⟩

theorem apply_spec_list (p : FsPath) (cs : List Node) (fs : FS) :
    (∀ q, (∀ e ∈ links_of p cs ++ linkEntriesL p cs, q ≠ e.1) →
        fsRead (apply_changes_list p cs fs).1 q = fsRead fs q) ∧
    (∀ q, fsRead (apply_changes_list p cs fs).1 q = fsRead fs q ∨
        fsRead (apply_changes_list p cs fs).1 q = some SIGNATURE) ∧
    ((∀ e ∈ links_of p cs ++ linkEntriesL p cs, fsRead fs e.1 ≠ none) →
        (apply_changes_list p cs fs).2.2 = true ∧
        ∀ e ∈ links_of p cs ++ linkEntriesL p cs, ∃ c,
          fsRead (apply_changes_list p cs fs).1 e.1 = some c ∧
          c.take SIGNATURE.length = SIGNATURE) ∧
    ((∀ e ∈ links_of p cs ++ linkEntriesL p cs, ∃ c, fsRead fs e.1 = some c ∧
        c.take SIGNATURE.length = SIGNATURE) →
        apply_changes_list p cs fs = (fs, [], true)) ∧
    (∀ q, fsRead fs q = none → fsRead (apply_changes_list p cs fs).1 q = none) :=
  match cs with
  | [] => by
    simp [apply_changes_list, links_of, linkEntriesL]
  | .file n ck :: rest => by
    have e1 : apply_changes_list p (Node.file n ck :: rest) fs =
        apply_changes_list p rest fs := by rw [apply_changes_list]
    have e2 : links_of p (Node.file n ck :: rest) ++
        linkEntriesL p (Node.file n ck :: rest) =
        links_of p rest ++ linkEntriesL p rest := by
      rw [links_of_cons_file, linkEntriesL_cons, linkEntries_file, List.nil_append]
    rw [e1, e2]
    exact apply_spec_list p rest fs
  | .link n ck r :: rest => by
    have hmem : ∀ e, e ∈ links_of p (Node.link n ck r :: rest) ++
        linkEntriesL p (Node.link n ck r :: rest) ↔
        e = (p ++ [n], ck, r) ∨ e ∈ links_of p rest ++ linkEntriesL p rest := by
      intro e
      rw [links_of_cons_link, linkEntriesL_cons, linkEntries_link,
        List.cons_append, List.nil_append]
      exact List.mem_cons
    rcases apply_link_cases (p ++ [n]) fs with ⟨hnone, heq⟩ | ⟨c, hsome, hrest⟩
    · -- read fails: the walk aborts with the filesystem unchanged
      constructor
      · intro q _
        simp [apply_changes_list, heq]
      constructor
      · intro q
        simp [apply_changes_list, heq]
      constructor
      · intro hall
        exact absurd hnone (hall (p ++ [n], ck, r) ((hmem _).2 (Or.inl rfl)))
      constructor
      · intro hall
        obtain ⟨c, hc, _⟩ := hall (p ++ [n], ck, r) ((hmem _).2 (Or.inl rfl))
        rw [hnone] at hc
        cases hc
      · intro q hq
        simp [apply_changes_list, heq, hq]
    · rcases hrest with ⟨heq, hmark⟩ | ⟨heq, hmark⟩
      · -- already marked: no-op on this link, continue on the same fs
        have ih := apply_spec_list p rest fs
        obtain ⟨ih1, ih2, ih3, ih4, ih5⟩ := ih
        constructor
        · intro q hq
          have : (apply_changes_list p (Node.link n ck r :: rest) fs) =
              ((apply_changes_list p rest fs).1, [] ++ (apply_changes_list p rest fs).2.1,
                (apply_changes_list p rest fs).2.2) := by
            simp [apply_changes_list, heq]
          rw [this]
          exact ih1 q (fun e he => hq e ((hmem e).2 (Or.inr he)))
        constructor
        · intro q
          have : (apply_changes_list p (Node.link n ck r :: rest) fs).1 =
              (apply_changes_list p rest fs).1 := by
            simp [apply_changes_list, heq]
          rw [this]
          exact ih2 q
        constructor
        · intro hall
          have hall' : ∀ e ∈ links_of p rest ++ linkEntriesL p rest, fsRead fs e.1 ≠ none :=
            fun e he => hall e ((hmem e).2 (Or.inr he))
          obtain ⟨hok, hmk⟩ := ih3 hall'
          have h1 : (apply_changes_list p (Node.link n ck r :: rest) fs).1 =
              (apply_changes_list p rest fs).1 := by
            simp [apply_changes_list, heq]
          have h2 : (apply_changes_list p (Node.link n ck r :: rest) fs).2.2 =
              (apply_changes_list p rest fs).2.2 := by
            simp [apply_changes_list, heq]
          refine ⟨by rw [h2]; exact hok, ?_⟩
          intro e he
          rcases (hmem e).1 he with he' | he'
          · subst he'
            rw [h1]
            rcases ih2 (p ++ [n]) with h | h
            · exact ⟨c, by rw [h]; exact hsome, hmark⟩
            · exact ⟨SIGNATURE, h, SIGNATURE_take⟩
          · rw [h1]
            exact hmk e he'
        constructor
        · intro hall
          have hall' : ∀ e ∈ links_of p rest ++ linkEntriesL p rest, ∃ c,
              fsRead fs e.1 = some c ∧ c.take SIGNATURE.length = SIGNATURE :=
            fun e he => hall e ((hmem e).2 (Or.inr he))
          have := ih4 hall'
          simp [apply_changes_list, heq, this]
        · intro q hq
          have h1 : (apply_changes_list p (Node.link n ck r :: rest) fs).1 =
              (apply_changes_list p rest fs).1 := by
            simp [apply_changes_list, heq]
          rw [h1]
          exact ih5 q hq
      · -- unmarked: rewrite to the marker stub, then continue on the new fs
        set fs1 := fsWrite (fsRemove fs (p ++ [n])) (p ++ [n]) SIGNATURE with hfs1
        have hread1 : ∀ q, fsRead fs1 q =
            if q = p ++ [n] then some SIGNATURE else fsRead fs q := by
          intro q; rw [hfs1]; exact apply_link_write_read fs (p ++ [n]) q
        have ih := apply_spec_list p rest fs1
        obtain ⟨ih1, ih2, ih3, ih4, ih5⟩ := ih
        have h1 : (apply_changes_list p (Node.link n ck r :: rest) fs).1 =
            (apply_changes_list p rest fs1).1 := by
          simp [apply_changes_list, heq]
        have h2 : (apply_changes_list p (Node.link n ck r :: rest) fs).2.2 =
            (apply_changes_list p rest fs1).2.2 := by
          simp [apply_changes_list, heq]
        constructor
        · intro q hq
          rw [h1]
          have hqn : q ≠ p ++ [n] := hq (p ++ [n], ck, r) ((hmem _).2 (Or.inl rfl))
          rw [ih1 q (fun e he => hq e ((hmem e).2 (Or.inr he))), hread1, if_neg hqn]
        constructor
        · intro q
          rw [h1]
          rcases ih2 q with h | h
          · rw [h, hread1]
            by_cases hqn : q = p ++ [n]
            · exact Or.inr (by rw [if_pos hqn])
            · exact Or.inl (by rw [if_neg hqn])
          · exact Or.inr h
        constructor
        · intro hall
          have hall' : ∀ e ∈ links_of p rest ++ linkEntriesL p rest,
              fsRead fs1 e.1 ≠ none := by
            intro e he
            rw [hread1]
            by_cases hqn : e.1 = p ++ [n]
            · simp [hqn]
            · rw [if_neg hqn]
              exact hall e ((hmem e).2 (Or.inr he))
          obtain ⟨hok, hmk⟩ := ih3 hall'
          refine ⟨by rw [h2]; exact hok, ?_⟩
          intro e he
          rcases (hmem e).1 he with he' | he'
          · subst he'
            rw [h1]
            rcases ih2 (p ++ [n]) with h | h
            · refine ⟨SIGNATURE, ?_, SIGNATURE_take⟩
              rw [h, hread1, if_pos rfl]
            · exact ⟨SIGNATURE, h, SIGNATURE_take⟩
          · rw [h1]
            exact hmk e he'
        constructor
        · intro hall
          obtain ⟨c', hc', hm'⟩ := hall (p ++ [n], ck, r) ((hmem _).2 (Or.inl rfl))
          rw [hsome] at hc'
          cases hc'
          exact absurd hm' hmark
        · intro q hq
          rw [h1]
          apply ih5
          rw [hread1]
          by_cases hqn : q = p ++ [n]
          · subst hqn
            rw [hsome] at hq
            cases hq
          · rw [if_neg hqn]
            exact hq
  | .dir n k :: rest => by
    have hnodeP := apply_spec p (.dir n k) fs
    obtain ⟨n1, n2, n3, n4, n5⟩ := hnodeP
    have hmem : ∀ e, e ∈ links_of p (Node.dir n k :: rest) ++
        linkEntriesL p (Node.dir n k :: rest) ↔
        e ∈ linkEntries p (.dir n k) ∨ e ∈ links_of p rest ++ linkEntriesL p rest := by
      intro e
      rw [links_of_cons_dir, linkEntriesL_cons]
      simp only [List.mem_append]
      tauto
    cases hok : (apply_changes p (.dir n k) fs).2.2 with
    | false =>
      have heq : apply_changes_list p (Node.dir n k :: rest) fs =
          ((apply_changes p (.dir n k) fs).1, (apply_changes p (.dir n k) fs).2.1,
            false) := by
        rw [apply_changes_list_cons_dir, hok]
        simp
      constructor
      · intro q hq
        rw [heq]
        exact n1 q (fun e he => hq e ((hmem e).2 (Or.inl he)))
      constructor
      · intro q
        rw [heq]
        exact n2 q
      constructor
      · intro hall
        have := (n3 (fun e he => hall e ((hmem e).2 (Or.inl he)))).1
        rw [hok] at this
        cases this
      constructor
      · intro hall
        have := n4 (fun e he => hall e ((hmem e).2 (Or.inl he)))
        rw [this] at hok
        cases hok
      · intro q hq
        rw [heq]
        exact n5 q hq
    | true =>
      set fs1 := (apply_changes p (.dir n k) fs).1 with hfs1
      have ih := apply_spec_list p rest fs1
      obtain ⟨ih1, ih2, ih3, ih4, ih5⟩ := ih
      have h1 : (apply_changes_list p (Node.dir n k :: rest) fs).1 =
          (apply_changes_list p rest fs1).1 := by
        rw [apply_changes_list_cons_dir, hok]
        simp [← hfs1]
      have h2 : (apply_changes_list p (Node.dir n k :: rest) fs).2.2 =
          (apply_changes_list p rest fs1).2.2 := by
        rw [apply_changes_list_cons_dir, hok]
        simp [← hfs1]
      constructor
      · intro q hq
        rw [h1, ih1 q (fun e he => hq e ((hmem e).2 (Or.inr he)))]
        exact n1 q (fun e he => hq e ((hmem e).2 (Or.inl he)))
      constructor
      · intro q
        rcases ih2 q with h | h
        · rw [h1, h]
          exact n2 q
        · exact Or.inr (h1 ▸ h)
      constructor
      · intro hall
        obtain ⟨_, hmk1⟩ := n3 (fun e he => hall e ((hmem e).2 (Or.inl he)))
        have hall' : ∀ e ∈ links_of p rest ++ linkEntriesL p rest,
            fsRead fs1 e.1 ≠ none := by
          intro e he
          rcases n2 e.1 with h | h
          · rw [h]
            exact hall e ((hmem e).2 (Or.inr he))
          · rw [h]
            simp
        obtain ⟨hok2, hmk2⟩ := ih3 hall'
        refine ⟨by rw [h2]; exact hok2, ?_⟩
        intro e he
        rcases (hmem e).1 he with he' | he'
        · obtain ⟨c, hc, hm⟩ := hmk1 e he'
          rcases ih2 e.1 with h | h
          · exact ⟨c, by rw [h1, h]; exact hc, hm⟩
          · exact ⟨SIGNATURE, by rw [h1, h], SIGNATURE_take⟩
        · obtain ⟨c, hc, hm⟩ := hmk2 e he'
          exact ⟨c, by rw [h1]; exact hc, hm⟩
      constructor
      · intro hall
        have hch := n4 (fun e he => hall e ((hmem e).2 (Or.inl he)))
        have hfs1fs : fs1 = fs := by rw [hfs1, hch]
        have hrest := ih4 (by
          rw [hfs1fs]
          exact fun e he => hall e ((hmem e).2 (Or.inr he)))
        rw [hfs1fs] at hrest
        rw [apply_changes_list_cons_dir, hch]
        simp [hrest]
      · intro q hq
        rw [h1]
        exact ih5 q (n5 q hq)

end

mutual

theorem apply_ok_present (pfx : FsPath) (t : Node) (fs : FS) :
    (apply_changes pfx t fs).2.2 = true →
    ∀ e ∈ linkEntries pfx t, fsRead fs e.1 ≠ none :=
  match t with
  | .dir n cs => by
    have e1 : apply_changes pfx (.dir n cs) fs = apply_changes_list (pfx ++ [n]) cs fs := by
      rw [apply_changes]
    rw [e1, linkEntries_dir]
    exact apply_ok_present_list (pfx ++ [n]) cs fs
  | .file n ck => by
    rw [linkEntries_file]
    exact fun _ e he => absurd he (List.not_mem_nil e)
  | .link n ck r => by
    rw [linkEntries_link]
    exact fun _ e he => absurd he (List.not_mem_nil e)

theorem apply_ok_present_list (p : FsPath) (cs : List Node) (fs : FS) :
    (apply_changes_list p cs fs).2.2 = true →
    ∀ e ∈ links_of p cs ++ linkEntriesL p cs, fsRead fs e.1 ≠ none :=
  match cs with
  | [] => by
    intro _ e he
    rw [links_of_nil, linkEntriesL_nil] at he
    exact absurd he (List.not_mem_nil e)
  | .file n ck :: rest => by
    have e1 : apply_changes_list p (Node.file n ck :: rest) fs =
        apply_changes_list p rest fs := by rw [apply_changes_list]
    have e2 : links_of p (Node.file n ck :: rest) ++
        linkEntriesL p (Node.file n ck :: rest) =
        links_of p rest ++ linkEntriesL p rest := by
      rw [links_of_cons_file, linkEntriesL_cons, linkEntries_file, List.nil_append]
    rw [e1, e2]
    exact apply_ok_present_list p rest fs
  | .link n ck r :: rest => by
    have hmem : ∀ e, e ∈ links_of p (Node.link n ck r :: rest) ++
        linkEntriesL p (Node.link n ck r :: rest) ↔
        e = (p ++ [n], ck, r) ∨ e ∈ links_of p rest ++ linkEntriesL p rest := by
      intro e
      rw [links_of_cons_link, linkEntriesL_cons, linkEntries_link,
        List.cons_append, List.nil_append]
      exact List.mem_cons
    rcases apply_link_cases (p ++ [n]) fs with ⟨hnone, heq⟩ | ⟨c, hsome, hrest⟩
    · intro hok
      rw [show apply_changes_list p (Node.link n ck r :: rest) fs =
          (fs, [], false) by simp [apply_changes_list, heq]] at hok
      cases hok
    · rcases hrest with ⟨heq, hmark⟩ | ⟨heq, hmark⟩
      · intro hok e he
        have hok' : (apply_changes_list p rest fs).2.2 = true := by
          rw [show (apply_changes_list p (Node.link n ck r :: rest) fs).2.2 =
            (apply_changes_list p rest fs).2.2 by simp [apply_changes_list, heq]] at hok
          exact hok
        rcases (hmem e).1 he with he' | he'
        · subst he'
          rw [hsome]
          simp
        · exact apply_ok_present_list p rest fs hok' e he'
      · intro hok e he
        have hok' : (apply_changes_list p rest
            (fsWrite (fsRemove fs (p ++ [n])) (p ++ [n]) SIGNATURE)).2.2 = true := by
          rw [show (apply_changes_list p (Node.link n ck r :: rest) fs).2.2 =
            (apply_changes_list p rest
              (fsWrite (fsRemove fs (p ++ [n])) (p ++ [n]) SIGNATURE)).2.2 by
            simp [apply_changes_list, heq]] at hok
          exact hok
        rcases (hmem e).1 he with he' | he'
        · subst he'
          rw [hsome]
          simp
        · have h1 := apply_ok_present_list p rest _ hok' e he'
          rw [apply_link_write_read] at h1
          by_cases hq : e.1 = p ++ [n]
          · rw [hq, hsome]
            simp
          · rw [if_neg hq] at h1
            exact h1
  | .dir n k :: rest => by
    cases hok : (apply_changes p (.dir n k) fs).2.2 with
    | false =>
      intro hok2
      rw [apply_changes_list_cons_dir, hok] at hok2
      simp at hok2
    | true =>
      intro hok2 e he
      have hmem : e ∈ linkEntries p (.dir n k) ∨
          e ∈ links_of p rest ++ linkEntriesL p rest := by
        rw [links_of_cons_dir, linkEntriesL_cons] at he
        simp only [List.mem_append] at he ⊢
        tauto
      have hok' : (apply_changes_list p rest (apply_changes p (.dir n k) fs).1).2.2 =
          true := by
        rw [apply_changes_list_cons_dir, hok] at hok2
        simpa using hok2
      rcases hmem with he' | he'
      · exact apply_ok_present p (.dir n k) fs hok e he'
      · have h1 := apply_ok_present_list p rest _ hok' e he'
        intro hcontra
        exact h1 ((apply_spec p (.dir n k) fs).2.2.2.2 e.1 hcontra)

end

/-! ## C5 and C10 -/

/-- C5: for every Link node, apply first reads the first marker-length bytes
at the link's path and performs no delete or write when they equal the
reserved marker; consequently, applying twice in succession without an
intervening restore performs no filesystem mutation on the second
invocation. -/
theorem apply_marker_idempotent :
    (∀ (p : FsPath) (fs : FS) (c : Content), fsRead fs p = some c →
        c.take SIGNATURE.length = SIGNATURE → apply_link p fs = (fs, [], true)) ∧
    (∀ (pfx : FsPath) (t : Node) (fs fs' : FS) (m : List Mut),
        apply_changes pfx t fs = (fs', m, true) →
        apply_changes pfx t fs' = (fs', [], true)) := by
  constructor
  · intro p fs c hr hm
    unfold apply_link
    rw [hr]
    simp [hm]
  · intro pfx t fs fs' m h
    have hpresent : ∀ e ∈ linkEntries pfx t, fsRead fs e.1 ≠ none :=
      apply_ok_present pfx t fs (by rw [h])
    obtain ⟨-, -, h3, h4, -⟩ := apply_spec pfx t fs
    obtain ⟨-, hmarked⟩ := h3 hpresent
    rw [h] at hmarked
    obtain ⟨-, -, -, h4', -⟩ := apply_spec pfx t fs'
    exact h4' hmarked

/-- Witness for `apply_marker_idempotent`: a marked stub is skipped, and a
second apply over a directory whose link was just rewritten mutates
nothing. -/
theorem apply_marker_idempotent_witness :
    apply_link ["d", "y"] [(["d", "y"], SIGNATURE)] =
      ([(["d", "y"], SIGNATURE)], [], true) ∧
    apply_changes [] (.dir "d" [.link "y" [1, 0] ["d", "x"]])
        [(["d", "x"], [0]), (["d", "y"], SIGNATURE)] =
      ([(["d", "x"], [0]), (["d", "y"], SIGNATURE)], [], true) :=
  ⟨apply_marker_idempotent.1 ["d", "y"] [(["d", "y"], SIGNATURE)] SIGNATURE
      (by decide) (by decide),
   apply_marker_idempotent.2 [] (.dir "d" [.link "y" [1, 0] ["d", "x"]])
      [(["d", "x"], [0]), (["d", "y"], [0])]
      [(["d", "x"], [0]), (["d", "y"], SIGNATURE)]
      [.removed ["d", "y"], .wrote ["d", "y"] SIGNATURE] (by decide)⟩

/-- C10: when the file at a Link node's path is missing, the marker-prefix
read fails before any delete or write for that node, leaving the
filesystem unchanged by that node's processing; and apply never creates an
entry at a path that has no file. -/
theorem apply_missing_is_error :
    (∀ (p : FsPath) (fs : FS), fsRead fs p = none →
        apply_link p fs = (fs, [], false)) ∧
    (∀ (pfx : FsPath) (t : Node) (fs : FS) (q : FsPath),
        fsRead fs q = none → fsRead (apply_changes pfx t fs).1 q = none) := by
  constructor
  · intro p fs h
    unfold apply_link
    rw [h]
  · intro pfx t fs q h
    exact (apply_spec pfx t fs).2.2.2.2 q h

/-- Witness for `apply_missing_is_error`: a link whose path has no file
makes the read raise with no mutation, and apply leaves absent paths
absent. -/
theorem apply_missing_is_error_witness :
    apply_link ["d", "y"] [] = ([], [], false) ∧
    fsRead (apply_changes [] (.dir "r" [.link "a" [1, 5] ["r", "a"]])
        [(["r", "a"], [5])]).1 ["r", "b"] = none :=
  ⟨apply_missing_is_error.1 ["d", "y"] [] (by decide),
   apply_missing_is_error.2 [] (.dir "r" [.link "a" [1, 5] ["r", "a"]])
      [(["r", "a"], [5])] ["r", "b"] (by decide)⟩

/-! ## The indexer: classification and failure -/

mutual

theorem index_none_iff (name : String) (e : Entry) :
    index_directory name e = none ↔ containsOther e = true :=
  match e with
  | .file c => by
    rw [show index_directory name (.file c) = some (.file name (sha256d c)) from by
      rw [index_directory]]
    simp [containsOther]
  | .symlinkFile c => by
    rw [show index_directory name (.symlinkFile c) = some (.file name (sha256d c)) from by
      rw [index_directory]]
    simp [containsOther]
  | .other => by
    rw [show index_directory name .other = none from by rw [index_directory]]
    simp [containsOther]
  | .dir es => by
    have h := index_children_none_iff es
    rw [show containsOther (.dir es) = containsOtherL es from by rw [containsOther]]
    rw [index_directory]
    cases hc : index_children es with
    | none => simpa [hc] using h
    | some cs => simpa [hc] using h
  | .symlinkDir es => by
    have h := index_children_none_iff es
    rw [show containsOther (.symlinkDir es) = containsOtherL es from by rw [containsOther]]
    rw [index_directory]
    cases hc : index_children es with
    | none => simpa [hc] using h
    | some cs => simpa [hc] using h

theorem index_children_none_iff (es : List (String × Entry)) :
    index_children es = none ↔ containsOtherL es = true :=
  match es with
  | [] => by
    rw [show index_children [] = some [] from by rw [index_children]]
    simp [containsOtherL]
  | (n, e) :: rest => by
    have h1 := index_none_iff n e
    have h2 := index_children_none_iff rest
    rw [show containsOtherL ((n, e) :: rest) =
      (containsOther e || containsOtherL rest) from by rw [containsOtherL]]
    rw [index_children]
    cases he : index_directory n e with
    | none =>
      rw [he] at h1
      simp [h1.1 rfl]
    | some c =>
      rw [he] at h1
      cases hr : index_children rest with
      | none =>
        rw [hr] at h2
        simp [h2.1 rfl]
      | some cs =>
        rw [hr] at h2
        simp only [Option.some_ne_none, false_iff] at h1 h2 ⊢
        simp only [Bool.or_eq_true, not_or]
        exact ⟨h1, h2⟩

end

theorem index_children_some_iff (es : List (String × Entry)) (cs : List Node) :
    index_children es = some cs ↔
      List.Forall₂ (fun pe c => index_directory pe.1 pe.2 = some c) es cs := by
  induction es generalizing cs with
  | nil =>
    rw [show index_children [] = some [] from by rw [index_children]]
    cases cs with
    | nil => simp
    | cons c cs' => simp
  | cons pe rest ih =>
    obtain ⟨n, e⟩ := pe
    rw [index_children]
    cases he : index_directory n e with
    | none =>
      constructor
      · intro hcontra
        cases hcontra
      · intro hf
        cases hf with
        | cons h1 h2 => rw [he] at h1; cases h1
    | some c =>
      cases hr : index_children rest with
      | none =>
        constructor
        · intro hcontra
          cases hcontra
        · intro hf
          cases hf with
          | cons h1 h2 =>
            rw [← ih] at h2
            rw [hr] at h2
            cases h2
      | some cs' =>
        constructor
        · intro h
          cases h
          exact List.Forall₂.cons he ((ih cs').1 hr)
        · intro hf
          cases cs with
          | nil => cases hf
          | cons c₀ cs₀ =>
            cases hf with
            | cons h1 h2 =>
              rw [he] at h1
              cases h1
              have := (ih cs₀).2 h2
              rw [hr] at this
              cases this
              rfl

/-- C6 counterexample: `pathlib.Path.is_file()` follows symlinks, so a
symlink to a regular file is indexed as a File node instead of failing
with the unsupported-entry-kind fault the claim requires for every
symlink. -/
theorem index_symlink_not_fault :
    index_directory "s" (.symlinkFile [7]) = some (.file "s" (sha256d [7])) := by
  rw [index_directory]

/-- C6 as amended: a regular file (or a symlink resolving to one) yields a
File node, a directory — and likewise a symlink resolving to one — yields a
recursively populated Directory node, and indexing fails — fatally, with no
skip-and-continue — exactly when the tree contains an entry that is neither
a regular file nor a directory after following symlinks. -/
theorem index_classification :
    (∀ (n : String) (c : Content),
        index_directory n (.file c) = some (.file n (sha256d c))) ∧
    (∀ (n : String) (c : Content),
        index_directory n (.symlinkFile c) = some (.file n (sha256d c))) ∧
    (∀ n : String, index_directory n .other = none) ∧
    (∀ (n : String) (e : Entry),
        index_directory n e = none ↔ containsOther e = true) ∧
    (∀ (n : String) (es : List (String × Entry)) (t : Node),
        index_directory n (.dir es) = some t →
        ∃ cs, t = .dir n cs ∧
          List.Forall₂ (fun pe c => index_directory pe.1 pe.2 = some c) es cs) ∧
    (∀ (n : String) (es : List (String × Entry)) (t : Node),
        index_directory n (.symlinkDir es) = some t →
        ∃ cs, t = .dir n cs ∧
          List.Forall₂ (fun pe c => index_directory pe.1 pe.2 = some c) es cs) := by
  refine ⟨fun n c => by rw [index_directory],
    fun n c => by rw [index_directory],
    fun n => by rw [index_directory],
    index_none_iff,
    fun n es t h => ?_, fun n es t h => ?_⟩
  · rw [index_directory] at h
    cases hc : index_children es with
    | none => rw [hc] at h; cases h
    | some cs =>
      rw [hc] at h
      simp only [Option.some_inj] at h
      exact ⟨cs, h.symm, (index_children_some_iff es cs).1 hc⟩
  · rw [index_directory] at h
    cases hc : index_children es with
    | none => rw [hc] at h; cases h
    | some cs =>
      rw [hc] at h
      simp only [Option.some_inj] at h
      exact ⟨cs, h.symm, (index_children_some_iff es cs).1 hc⟩

/-- Witness for `index_classification` on a concrete one-file directory
and on a symlink resolving to that same directory. -/
theorem index_classification_witness :
    (∃ cs, (Node.dir "r" [.file "a" [1, 2]]) = .dir "r" cs ∧
      List.Forall₂ (fun pe c => index_directory pe.1 pe.2 = some c)
        [("a", Entry.file [2])] cs) ∧
    (∃ cs, (Node.dir "s" [.file "a" [1, 2]]) = .dir "s" cs ∧
      List.Forall₂ (fun pe c => index_directory pe.1 pe.2 = some c)
        [("a", Entry.file [2])] cs) :=
  ⟨index_classification.2.2.2.2.1 "r" [("a", .file [2])]
    (.dir "r" [.file "a" [1, 2]]) (by decide),
   index_classification.2.2.2.2.2 "s" [("a", .file [2])]
    (.dir "s" [.file "a" [1, 2]]) (by decide)⟩

/-! ## Prune totality and the FileLink invariant (C7) -/

theorem regFind_mem {reg : Reg} {k : Digest} {v : FsPath × Digest}
    (h : regFind reg k = some v) : (k, v) ∈ reg := by
  induction reg with
  | nil => cases h
  | cons e rest ih =>
    obtain ⟨k', v'⟩ := e
    unfold regFind at h
    by_cases hk : k' = k
    · rw [if_pos hk] at h
      simp only [Option.some_inj] at h
      subst hk
      subst h
      exact List.mem_cons_self _ _
    · rw [if_neg hk] at h
      exact List.mem_cons_of_mem _ (ih h)

theorem wfReg_append_single {reg : Reg} (h : wfReg reg) (ck : Digest) (p : FsPath) :
    wfReg (reg ++ [(ck, (p, ck))]) := by
  intro e he
  rcases List.mem_append.1 he with he' | he'
  · exact h e he'
  · rcases List.mem_singleton.1 he' with rfl
    rfl

theorem prune_files_total (p : FsPath) (todo : List Node) :
    ∀ (cs : List Node) (reg : Reg), wfReg reg →
    ∃ out, prune_files p todo cs reg = some out ∧ wfReg out.2 := by
  induction todo with
  | nil => exact fun cs reg h => ⟨(cs, reg), by rw [prune_files], h⟩
  | cons child rest ih =>
    intro cs reg h
    match child with
    | .file n ck =>
      cases hc : regFind reg ck with
      | some canon =>
        have hckk : canon.2 = ck := h (ck, canon) (regFind_mem hc)
        have hmk : mkFileLink (.file n ck) canon = some (.link n ck canon.1) := by
          simp only [mkFileLink]
          rw [if_pos hckk.symm]
        obtain ⟨out, hout, hwf⟩ :=
          ih (prune_child cs (.file n ck) ++ [.link n ck canon.1]) reg h
        refine ⟨out, ?_, hwf⟩
        rw [prune_files, hc]
        simpa [replace_child, hmk] using hout
      | none =>
        obtain ⟨out, hout, hwf⟩ :=
          ih cs (reg ++ [(ck, (p ++ [n], ck))]) (wfReg_append_single h ck (p ++ [n]))
        refine ⟨out, ?_, hwf⟩
        rw [prune_files, hc]
        exact hout
    | .dir n k =>
      obtain ⟨out, hout, hwf⟩ := ih cs reg h
      exact ⟨out, by rw [prune_files]; exact hout, hwf⟩
    | .link n ck r =>
      obtain ⟨out, hout, hwf⟩ := ih cs reg h
      exact ⟨out, by rw [prune_files]; exact hout, hwf⟩

mutual

theorem prune_children_total (pfx : FsPath) (t : Node) (reg : Reg) (h : wfReg reg) :
    ∃ out, prune_children pfx t reg = some out ∧ wfReg out.2 :=
  match t with
  | .dir n cs => by
    obtain ⟨⟨cs1, r1⟩, h1, hw1⟩ := prune_files_total (pfx ++ [n]) (file_children cs) cs reg h
    obtain ⟨⟨ds, r2⟩, h2, hw2⟩ := prune_dirs_total (pfx ++ [n]) cs r1 hw1
    refine ⟨(.dir n (subst_dirs cs1 ds), r2), ?_, hw2⟩
    rw [prune_children, h1]
    simp [h2]
  | .file n ck => ⟨(.file n ck, reg), by rw [prune_children], h⟩
  | .link n ck r => ⟨(.link n ck r, reg), by rw [prune_children], h⟩

theorem prune_dirs_total (pfx : FsPath) (cs : List Node) (reg : Reg) (h : wfReg reg) :
    ∃ out, prune_dirs pfx cs reg = some out ∧ wfReg out.2 :=
  match cs with
  | [] => ⟨([], reg), by rw [prune_dirs], h⟩
  | .dir n k :: rest => by
    obtain ⟨⟨d', r1⟩, h1, hw1⟩ := prune_children_total pfx (.dir n k) reg h
    obtain ⟨⟨ds, r2⟩, h2, hw2⟩ := prune_dirs_total pfx rest r1 hw1
    refine ⟨(d' :: ds, r2), ?_, hw2⟩
    rw [prune_dirs, h1]
    simp [h2]
  | .file n ck :: rest => by
    obtain ⟨out, hout, hwf⟩ := prune_dirs_total pfx rest reg h
    exact ⟨out, by rw [prune_dirs]; exact hout, hwf⟩
  | .link n ck r :: rest => by
    obtain ⟨out, hout, hwf⟩ := prune_dirs_total pfx rest reg h
    exact ⟨out, by rw [prune_dirs]; exact hout, hwf⟩

end

/-- C7: constructing a FileLink whose original and replacement checksums
differ fails fatally at construction (the assert raises), and during a
prune pass every FileLink construction pairs equal checksums — the
registry only ever maps a checksum to a file registered under that same
checksum — so a pass started from any well-formed registry (in particular
the empty one) never hits the failure branch. -/
theorem filelink_invariant :
    (∀ (n : String) (ck : Digest) (canon : FsPath × Digest), ck ≠ canon.2 →
        mkFileLink (.file n ck) canon = none) ∧
    (∀ (pfx : FsPath) (t : Node) (reg : Reg), wfReg reg →
        ∃ out, prune_children pfx t reg = some out) := by
  constructor
  · intro n ck canon hne
    simp only [mkFileLink]
    rw [if_neg hne]
  · intro pfx t reg h
    obtain ⟨out, hout, -⟩ := prune_children_total pfx t reg h
    exact ⟨out, hout⟩

/-- Witness for `filelink_invariant`: a mismatched construction fails; a
prune pass from the empty registry succeeds. -/
theorem filelink_invariant_witness :
    mkFileLink (.file "a" [3]) (["q"], [4]) = none ∧
    ∃ out, prune_children [] (.dir "r" [.file "a" [3], .file "b" [3]]) [] = some out :=
  ⟨filelink_invariant.1 "a" [3] (["q"], [4]) (by decide),
   filelink_invariant.2 [] (.dir "r" [.file "a" [3], .file "b" [3]]) []
     (fun e he => absurd he (List.not_mem_nil e))⟩

/-! ## C2 and C3: the shared default registry -/

/-- C3 is violated by the code: `prune_children`'s default `checksum_values={}`
dict persists across top-level calls, so re-running prune on an
already-pruned tree replaces every remaining canonical file with a link to
itself instead of being a no-op. -/
theorem prune_rerun_not_noop :
    prune_children_default (.dir "r" [.file "a" [9]]) [] =
      some (.dir "r" [.file "a" [9]], [([9], (["r", "a"], [9]))]) ∧
    prune_children_default (.dir "r" [.file "a" [9]]) [([9], (["r", "a"], [9]))] =
      some (.dir "r" [.link "a" [9] ["r", "a"]], [([9], (["r", "a"], [9]))]) ∧
    (Node.dir "r" [.link "a" [9] ["r", "a"]]) ≠ .dir "r" [.file "a" [9]] := by
  exact ⟨by decide, by decide, by decide⟩

/-- C2 is violated by the code: pruning a tree in a fresh process is a
no-op, but pruning the same tree after some other top-level prune ran in
the process links its file into the earlier tree, because the default
registry dict is shared between the two calls. -/
theorem prune_not_independent :
    prune_children_default (.dir "s" [.file "b" [7]]) [] =
      some (.dir "s" [.file "b" [7]], [([7], (["s", "b"], [7]))]) ∧
    prune_children_default (.dir "q" [.file "a" [7]]) [] =
      some (.dir "q" [.file "a" [7]], [([7], (["q", "a"], [7]))]) ∧
    prune_children_default (.dir "s" [.file "b" [7]]) [([7], (["q", "a"], [7]))] =
      some (.dir "s" [.link "b" [7] ["q", "a"]], [([7], (["q", "a"], [7]))]) ∧
    (Node.dir "s" [.link "b" [7] ["q", "a"]]) ≠ .dir "s" [.file "b" [7]] := by
  exact ⟨by decide, by decide, by decide, by decide⟩

/-! ## Collection membership and shape helpers -/

theorem isFile_iff {c : Node} : c.isFile = true ↔ ∃ n ck, c = .file n ck := by
  cases c <;> simp [Node.isFile]

theorem isDir_iff {c : Node} : c.isDir = true ↔ ∃ n k, c = .dir n k := by
  cases c <;> simp [Node.isDir]

theorem isLink_iff {c : Node} : c.isLink = true ↔ ∃ n ck r, c = .link n ck r := by
  cases c <;> simp [Node.isLink]

theorem mem_files_of {p : FsPath} {l : List Node} {e : FsPath × Digest} :
    e ∈ files_of p l ↔ ∃ n ck, Node.file n ck ∈ l ∧ e = (p ++ [n], ck) := by
  unfold files_of
  rw [List.mem_filterMap]
  constructor
  · rintro ⟨c, hc, hmatch⟩
    cases c with
    | file n ck =>
      refine ⟨n, ck, hc, ?_⟩
      simpa using hmatch.symm
    | dir n k => cases hmatch
    | link n ck r => cases hmatch
  · rintro ⟨n, ck, hc, rfl⟩
    exact ⟨.file n ck, hc, rfl⟩

theorem mem_links_of {p : FsPath} {l : List Node} {e : FsPath × Digest × FsPath} :
    e ∈ links_of p l ↔ ∃ n ck r, Node.link n ck r ∈ l ∧ e = (p ++ [n], ck, r) := by
  unfold links_of
  rw [List.mem_filterMap]
  constructor
  · rintro ⟨c, hc, hmatch⟩
    cases c with
    | file n ck => cases hmatch
    | dir n k => cases hmatch
    | link n ck r =>
      refine ⟨n, ck, r, hc, ?_⟩
      simpa using hmatch.symm
  · rintro ⟨n, ck, r, hc, rfl⟩
    exact ⟨.link n ck r, hc, rfl⟩

theorem files_of_all_links {p : FsPath} {ls : List Node}
    (h : ∀ l ∈ ls, Node.isLink l = true) : files_of p ls = [] := by
  unfold files_of
  rw [List.filterMap_eq_nil]
  intro c hc
  obtain ⟨n, ck, r, rfl⟩ := isLink_iff.1 (h c hc)
  rfl

theorem links_of_noLinks {p : FsPath} {cs : List Node}
    (h : ∀ c ∈ cs, Node.isLink c = false) : links_of p cs = [] := by
  unfold links_of
  rw [List.filterMap_eq_nil]
  intro c hc
  cases c with
  | file n ck => rfl
  | dir n k => rfl
  | link n ck r =>
    have := h _ hc
    simp [Node.isLink] at this

theorem file_children_cons_file (n : String) (ck : Digest) (rest : List Node) :
    file_children (.file n ck :: rest) = .file n ck :: file_children rest := by
  simp [file_children, Node.isFile]

theorem file_children_cons_dir (n : String) (k : List Node) (rest : List Node) :
    file_children (.dir n k :: rest) = file_children rest := by
  simp [file_children, Node.isFile]

theorem file_children_cons_link (n : String) (ck : Digest) (r : FsPath)
    (rest : List Node) :
    file_children (.link n ck r :: rest) = file_children rest := by
  simp [file_children, Node.isFile]

theorem files_of_file_children (p : FsPath) (cs : List Node) :
    files_of p (file_children cs) = files_of p cs := by
  induction cs with
  | nil => rfl
  | cons c rest ih =>
    cases c with
    | file n ck =>
      rw [file_children_cons_file, files_of_cons_file, files_of_cons_file, ih]
    | dir n k => rw [file_children_cons_dir, files_of_cons_dir, ih]
    | link n ck r => rw [file_children_cons_link, files_of_cons_link, ih]

theorem noLinksL_iff {cs : List Node} :
    noLinksL cs = true ↔ ∀ c ∈ cs, noLinks c = true := by
  induction cs with
  | nil => simp [noLinksL]
  | cons c rest ih =>
    rw [show noLinksL (c :: rest) = (noLinks c && noLinksL rest) from by rw [noLinksL]]
    simp [ih]

theorem nodupNamesL_iff {cs : List Node} :
    nodupNamesL cs = true ↔ ∀ c ∈ cs, nodupNames c = true := by
  induction cs with
  | nil => simp [nodupNamesL]
  | cons c rest ih =>
    rw [show nodupNamesL (c :: rest) = (nodupNames c && nodupNamesL rest) from by
      rw [nodupNamesL]]
    simp [ih]

theorem nodupNames_dir {n : String} {cs : List Node} :
    nodupNames (.dir n cs) = true ↔
      (cs.map Node.name).Nodup ∧ nodupNamesL cs = true := by
  rw [show nodupNames (.dir n cs) =
    (decide ((cs.map Node.name).Nodup) && nodupNamesL cs) from by rw [nodupNames]]
  simp

theorem noLinks_dir {n : String} {cs : List Node} :
    noLinks (.dir n cs) = true ↔ noLinksL cs = true := by
  rw [show noLinks (.dir n cs) = noLinksL cs from by rw [noLinks]]

theorem noLinks_not_isLink {c : Node} (h : noLinks c = true) : c.isLink = false := by
  cases c with
  | file n ck => rfl
  | dir n k => rfl
  | link n ck r => rw [show noLinks (.link n ck r) = false from by rw [noLinks]] at h; cases h

/-! ## Registry lemmas -/

theorem regFind_nil (k : Digest) : regFind [] k = none := rfl

theorem regFind_cons (k' : Digest) (v' : FsPath × Digest) (rest : Reg) (k : Digest) :
    regFind ((k', v') :: rest) k = if k' = k then some v' else regFind rest k := rfl

theorem specFold_nil (reg : Reg) : specFold reg [] = reg := rfl

theorem specFold_cons (reg : Reg) (p : FsPath) (ck : Digest)
    (rest : List (FsPath × Digest)) :
    specFold reg ((p, ck) :: rest) =
      match regFind reg ck with
      | some _ => specFold reg rest
      | none => specFold (reg ++ [(ck, (p, ck))]) rest := rfl

theorem regFind_append (r1 r2 : Reg) (k : Digest) :
    regFind (r1 ++ r2) k =
      match regFind r1 k with
      | some v => some v
      | none => regFind r2 k := by
  induction r1 with
  | nil => rw [regFind_nil, List.nil_append]
  | cons e rest ih =>
    obtain ⟨k', v'⟩ := e
    rw [List.cons_append, regFind_cons, regFind_cons]
    by_cases hk : k' = k
    · rw [if_pos hk, if_pos hk]
    · rw [if_neg hk, if_neg hk, ih]

theorem regFind_eq_none_iff {reg : Reg} {k : Digest} :
    regFind reg k = none ↔ ∀ e ∈ reg, e.1 ≠ k := by
  induction reg with
  | nil => simp [regFind_nil]
  | cons e rest ih =>
    obtain ⟨k', v'⟩ := e
    rw [regFind_cons]
    by_cases hk : k' = k
    · subst hk
      simp
    · rw [if_neg hk]
      simp only [List.mem_cons, ih]
      constructor
      · rintro h e (rfl | he)
        · exact hk
        · exact h e he
      · intro h e he
        exact h e (Or.inr he)

theorem specFold_append (reg : Reg) (A B : List (FsPath × Digest)) :
    specFold reg (A ++ B) = specFold (specFold reg A) B := by
  induction A generalizing reg with
  | nil => rw [List.nil_append, specFold_nil]
  | cons e rest ih =>
    obtain ⟨p, ck⟩ := e
    rw [List.cons_append]
    cases hf : regFind reg ck with
    | some v =>
      rw [specFold_cons, hf, specFold_cons, hf]
      exact ih reg
    | none =>
      rw [specFold_cons, hf, specFold_cons, hf]
      exact ih _

theorem specFold_prefix (reg : Reg) (A : List (FsPath × Digest)) :
    ∃ d, specFold reg A = reg ++ d := by
  induction A generalizing reg with
  | nil => exact ⟨[], by rw [specFold_nil, List.append_nil]⟩
  | cons e rest ih =>
    obtain ⟨p, ck⟩ := e
    cases hf : regFind reg ck with
    | some v =>
      rw [specFold_cons, hf]
      exact ih reg
    | none =>
      rw [specFold_cons, hf]
      obtain ⟨d, hd⟩ := ih (reg ++ [(ck, (p, ck))])
      exact ⟨(ck, (p, ck)) :: d, by rw [hd, List.append_assoc]; rfl⟩

theorem mem_specFold {reg : Reg} {e : Digest × (FsPath × Digest)}
    (h : e ∈ reg) (A : List (FsPath × Digest)) : e ∈ specFold reg A := by
  obtain ⟨d, hd⟩ := specFold_prefix reg A
  rw [hd]
  exact List.mem_append_left _ h

theorem specFold_wf {reg : Reg} (h : wfReg reg) (A : List (FsPath × Digest)) :
    wfReg (specFold reg A) := by
  induction A generalizing reg with
  | nil => rw [specFold_nil]; exact h
  | cons e rest ih =>
    obtain ⟨p, ck⟩ := e
    cases hf : regFind reg ck with
    | some v =>
      rw [specFold_cons, hf]
      exact ih h
    | none =>
      rw [specFold_cons, hf]
      exact ih (wfReg_append_single h ck p)

theorem specFold_keys_nodup {reg : Reg} (h : (reg.map Prod.fst).Nodup)
    (A : List (FsPath × Digest)) : ((specFold reg A).map Prod.fst).Nodup := by
  induction A generalizing reg with
  | nil => rw [specFold_nil]; exact h
  | cons e rest ih =>
    obtain ⟨p, ck⟩ := e
    cases hf : regFind reg ck with
    | some v =>
      rw [specFold_cons, hf]
      exact ih h
    | none =>
      rw [specFold_cons, hf]
      apply ih
      rw [List.map_append, List.nodup_append]
      refine ⟨h, by simp, ?_⟩
      intro x hx hx'
      simp only [List.map_cons, List.map_nil, List.mem_singleton] at hx'
      subst hx'
      obtain ⟨e', he', he'k⟩ := List.mem_map.1 hx
      exact (regFind_eq_none_iff.1 hf e' he') he'k

theorem regFind_found_append {r1 : Reg} {k : Digest} {v : FsPath × Digest}
    (h : regFind r1 k = some v) (r2 : Reg) : regFind (r1 ++ r2) k = some v := by
  rw [regFind_append, h]

theorem specFold_find_found {reg : Reg} {k : Digest} {v : FsPath × Digest}
    (h : regFind reg k = some v) (A : List (FsPath × Digest)) :
    regFind (specFold reg A) k = some v := by
  obtain ⟨d, hd⟩ := specFold_prefix reg A
  rw [hd]
  exact regFind_found_append h d

theorem specFold_find_none {reg : Reg} {k : Digest} (A : List (FsPath × Digest))
    (h : regFind reg k = none) :
    regFind (specFold reg A) k =
      (A.find? (fun e => decide (e.2 = k))).map (fun e => (e.1, k)) := by
  induction A generalizing reg with
  | nil => rw [specFold_nil, h]; rfl
  | cons e rest ih =>
    obtain ⟨p, ck⟩ := e
    by_cases hck : ck = k
    · subst hck
      rw [specFold_cons, h]
      have hfound : regFind (reg ++ [(ck, (p, ck))]) ck = some (p, ck) := by
        rw [regFind_append, h, regFind_cons, if_pos rfl]
      rw [specFold_find_found hfound rest]
      simp [List.find?_cons]
    · cases hf : regFind reg ck with
      | some v =>
        rw [specFold_cons, hf, ih h, List.find?_cons]
        simp [fun h' => hck h']
      | none =>
        have hnone : regFind (reg ++ [(ck, (p, ck))]) k = none := by
          rw [regFind_append, h, regFind_cons, if_neg hck, regFind_nil]
        rw [specFold_cons, hf, ih hnone, List.find?_cons]
        simp [fun h' => hck h']

theorem mem_reg_unique {reg : Reg} (h : (reg.map Prod.fst).Nodup)
    {k : Digest} {v1 v2 : FsPath × Digest}
    (h1 : (k, v1) ∈ reg) (h2 : (k, v2) ∈ reg) : v1 = v2 := by
  induction reg with
  | nil => cases h1
  | cons e rest ih =>
    rw [List.map_cons, List.nodup_cons] at h
    rcases List.mem_cons.1 h1 with rfl | h1'
    · rcases List.mem_cons.1 h2 with he | h2'
      · cases he
        rfl
      · exact absurd (List.mem_map_of_mem Prod.fst h2') (by simpa using h.1)
    · rcases List.mem_cons.1 h2 with rfl | h2'
      · exact absurd (List.mem_map_of_mem Prod.fst h1') (by simpa using h.1)
      · exact ih h.2 h1' h2'

/-! ## The file-children loop, characterized -/

theorem fileOutcomes_nil (p : FsPath) (reg : Reg) :
    fileOutcomes p reg [] = ([], [], reg) := rfl

theorem fileOutcomes_file (p : FsPath) (reg : Reg) (n : String) (ck : Digest)
    (rest : List Node) :
    fileOutcomes p reg (.file n ck :: rest) =
      match regFind reg ck with
      | some canon =>
        ((fileOutcomes p reg rest).1,
         .link n ck canon.1 :: (fileOutcomes p reg rest).2.1,
         (fileOutcomes p reg rest).2.2)
      | none =>
        (.file n ck :: (fileOutcomes p (reg ++ [(ck, (p ++ [n], ck))]) rest).1,
         (fileOutcomes p (reg ++ [(ck, (p ++ [n], ck))]) rest).2.1,
         (fileOutcomes p (reg ++ [(ck, (p ++ [n], ck))]) rest).2.2) := rfl

theorem fileOutcomes_dir (p : FsPath) (reg : Reg) (n : String) (k : List Node)
    (rest : List Node) :
    fileOutcomes p reg (.dir n k :: rest) = fileOutcomes p reg rest := rfl

theorem fileOutcomes_link (p : FsPath) (reg : Reg) (n : String) (ck : Digest)
    (r : FsPath) (rest : List Node) :
    fileOutcomes p reg (.link n ck r :: rest) = fileOutcomes p reg rest := rfl

theorem prune_files_nil (p : FsPath) (cs : List Node) (reg : Reg) :
    prune_files p [] cs reg = some (cs, reg) := rfl

theorem prune_files_cons_file (p : FsPath) (n : String) (ck : Digest)
    (rest cs : List Node) (reg : Reg) :
    prune_files p (.file n ck :: rest) cs reg =
      match regFind reg ck with
      | some canon =>
        (replace_child cs (.file n ck) canon).bind
          (fun cs' => prune_files p rest cs' reg)
      | none => prune_files p rest cs (reg ++ [(ck, (p ++ [n], ck))]) := rfl

theorem prune_files_cons_dir (p : FsPath) (n : String) (k : List Node)
    (rest cs : List Node) (reg : Reg) :
    prune_files p (.dir n k :: rest) cs reg = prune_files p rest cs reg := rfl

theorem prune_files_cons_link (p : FsPath) (n : String) (ck : Digest) (r : FsPath)
    (rest cs : List Node) (reg : Reg) :
    prune_files p (.link n ck r :: rest) cs reg = prune_files p rest cs reg := rfl

theorem prune_files_found {p : FsPath} {n : String} {ck : Digest}
    {rest cs : List Node} {reg : Reg} {canon : FsPath × Digest}
    (hf : regFind reg ck = some canon) :
    prune_files p (.file n ck :: rest) cs reg =
      (replace_child cs (.file n ck) canon).bind
        (fun cs2 => prune_files p rest cs2 reg) := by
  rw [prune_files_cons_file, hf]

theorem prune_files_notfound {p : FsPath} {n : String} {ck : Digest}
    {rest cs : List Node} {reg : Reg} (hf : regFind reg ck = none) :
    prune_files p (.file n ck :: rest) cs reg =
      prune_files p rest cs (reg ++ [(ck, (p ++ [n], ck))]) := by
  rw [prune_files_cons_file, hf]

theorem mkFileLink_file_some {n : String} {ck : Digest} {canon : FsPath × Digest}
    {l : Node} (h : mkFileLink (.file n ck) canon = some l) :
    l = .link n ck canon.1 ∧ ck = canon.2 := by
  simp only [mkFileLink] at h
  by_cases hc : ck = canon.2
  · rw [if_pos hc] at h
    exact ⟨(Option.some_inj.1 h).symm, hc⟩
  · rw [if_neg hc] at h
    cases h

theorem fileOutcomes_spec (p : FsPath) : ∀ (todo : List Node) (reg : Reg),
    wfReg reg →
    (fileOutcomes p reg todo).2.2 = specFold reg (files_of p todo) ∧
    (∀ k ∈ (fileOutcomes p reg todo).1, k.isFile = true ∧ k ∈ todo ∧
      (Node.checksum k, (p ++ [Node.name k], Node.checksum k)) ∈
        (fileOutcomes p reg todo).2.2) ∧
    (∀ l ∈ (fileOutcomes p reg todo).2.1, ∃ n ck r0, l = .link n ck r0 ∧
      Node.file n ck ∈ todo ∧ (ck, (r0, ck)) ∈ (fileOutcomes p reg todo).2.2) ∧
    (∀ c ∈ todo, c.isFile = true →
      c ∈ (fileOutcomes p reg todo).1 ∨
      c ∈ linkOriginals (fileOutcomes p reg todo).2.1) ∧
    ((todo.map Node.name).Nodup →
      ∀ x ∈ (fileOutcomes p reg todo).1,
        x ∉ linkOriginals (fileOutcomes p reg todo).2.1) := by
  intro todo
  induction todo with
  | nil =>
    intro reg hwf
    rw [fileOutcomes_nil]
    refine ⟨by rw [files_of_nil, specFold_nil], ?_, ?_, ?_, ?_⟩
    · intro k hk; cases hk
    · intro l hl; cases hl
    · intro c hc; cases hc
    · intro _ x hx; cases hx
  | cons c rest ih =>
    intro reg hwf
    match c with
    | .file n ck =>
      cases hf : regFind reg ck with
      | some canon =>
        obtain ⟨ih1, ih2, ih3, ih4, ih5⟩ := ih reg hwf
        have hcanon2 : canon.2 = ck := hwf _ (regFind_mem hf)
        have hcanonreg : (ck, (canon.1, ck)) ∈ reg := by
          have := regFind_mem hf
          rwa [show canon = (canon.1, ck) from Prod.ext rfl hcanon2] at this
        rw [fileOutcomes_file, hf]
        refine ⟨?_, ?_, ?_, ?_, ?_⟩
        · rw [files_of_cons_file, specFold_cons, hf]
          exact ih1
        · intro k hk
          obtain ⟨h1, h2, h3⟩ := ih2 k hk
          exact ⟨h1, List.mem_cons_of_mem _ h2, h3⟩
        · intro l hl
          rcases List.mem_cons.1 hl with rfl | hl'
          · refine ⟨n, ck, canon.1, rfl, List.mem_cons_self _ _, ?_⟩
            rw [ih1]
            exact mem_specFold hcanonreg _
          · obtain ⟨n', ck', r0, rfl, hmem, hreg⟩ := ih3 l hl'
            exact ⟨n', ck', r0, rfl, List.mem_cons_of_mem _ hmem, hreg⟩
        · intro c' hc' hfile
          rcases List.mem_cons.1 hc' with rfl | hc''
          · right
            unfold linkOriginals
            rw [List.map_cons]
            exact List.mem_cons_self _ _
          · rcases ih4 c' hc'' hfile with h | h
            · exact Or.inl h
            · right
              unfold linkOriginals at h ⊢
              rw [List.map_cons]
              exact List.mem_cons_of_mem _ h
        · intro hnodup x hx
          rw [List.map_cons, List.nodup_cons] at hnodup
          unfold linkOriginals
          rw [List.map_cons]
          intro hmem
          rcases List.mem_cons.1 hmem with heq | hmem'
          · obtain ⟨-, hxrest, -⟩ := ih2 x hx
            have hname : Node.name x = n := by rw [heq]; rfl
            have hn2 : n ∈ List.map Node.name rest := by
              have hmm := List.mem_map_of_mem Node.name hxrest
              rwa [hname] at hmm
            exact hnodup.1 hn2
          · exact ih5 hnodup.2 x hx hmem'
      | none =>
        have hwf' : wfReg (reg ++ [(ck, (p ++ [n], ck))]) :=
          wfReg_append_single hwf ck (p ++ [n])
        obtain ⟨ih1, ih2, ih3, ih4, ih5⟩ := ih (reg ++ [(ck, (p ++ [n], ck))]) hwf'
        rw [fileOutcomes_file, hf]
        refine ⟨?_, ?_, ?_, ?_, ?_⟩
        · rw [files_of_cons_file, specFold_cons, hf]
          exact ih1
        · intro k hk
          rcases List.mem_cons.1 hk with rfl | hk'
          · refine ⟨rfl, List.mem_cons_self _ _, ?_⟩
            rw [ih1]
            refine mem_specFold ?_ _
            exact List.mem_append_right _ (List.mem_singleton.2 rfl)
          · obtain ⟨h1, h2, h3⟩ := ih2 k hk'
            exact ⟨h1, List.mem_cons_of_mem _ h2, h3⟩
        · intro l hl
          obtain ⟨n', ck', r0, rfl, hmem, hreg⟩ := ih3 l hl
          exact ⟨n', ck', r0, rfl, List.mem_cons_of_mem _ hmem, hreg⟩
        · intro c' hc' hfile
          rcases List.mem_cons.1 hc' with rfl | hc''
          · exact Or.inl (List.mem_cons_self _ _)
          · rcases ih4 c' hc'' hfile with h | h
            · exact Or.inl (List.mem_cons_of_mem _ h)
            · exact Or.inr h
        · intro hnodup x hx
          rw [List.map_cons, List.nodup_cons] at hnodup
          rcases List.mem_cons.1 hx with rfl | hx'
          · intro hmem
            unfold linkOriginals at hmem
            obtain ⟨l, hl, hlx⟩ := List.mem_map.1 hmem
            obtain ⟨n', ck', r0, rfl, hmem', -⟩ := ih3 l hl
            have hinj : Node.file n' ck' = Node.file n ck := by
              simpa [Node.name, Node.checksum] using hlx
            cases hinj
            exact hnodup.1 (List.mem_map_of_mem Node.name hmem')
          · exact ih5 hnodup.2 x hx'
    | .dir n k =>
      obtain ⟨ih1, ih2, ih3, ih4, ih5⟩ := ih reg hwf
      rw [fileOutcomes_dir]
      refine ⟨?_, ?_, ?_, ?_, ?_⟩
      · rw [files_of_cons_dir]
        exact ih1
      · intro k' hk
        obtain ⟨h1, h2, h3⟩ := ih2 k' hk
        exact ⟨h1, List.mem_cons_of_mem _ h2, h3⟩
      · intro l hl
        obtain ⟨n', ck', r0, rfl, hmem, hreg⟩ := ih3 l hl
        exact ⟨n', ck', r0, rfl, List.mem_cons_of_mem _ hmem, hreg⟩
      · intro c' hc' hfile
        rcases List.mem_cons.1 hc' with rfl | hc''
        · cases hfile
        · exact ih4 c' hc'' hfile
      · intro hnodup x hx
        rw [List.map_cons, List.nodup_cons] at hnodup
        exact ih5 hnodup.2 x hx
    | .link n ck r =>
      obtain ⟨ih1, ih2, ih3, ih4, ih5⟩ := ih reg hwf
      rw [fileOutcomes_link]
      refine ⟨?_, ?_, ?_, ?_, ?_⟩
      · rw [files_of_cons_link]
        exact ih1
      · intro k' hk
        obtain ⟨h1, h2, h3⟩ := ih2 k' hk
        exact ⟨h1, List.mem_cons_of_mem _ h2, h3⟩
      · intro l hl
        obtain ⟨n', ck', r0, rfl, hmem, hreg⟩ := ih3 l hl
        exact ⟨n', ck', r0, rfl, List.mem_cons_of_mem _ hmem, hreg⟩
      · intro c' hc' hfile
        rcases List.mem_cons.1 hc' with rfl | hc''
        · cases hfile
        · exact ih4 c' hc'' hfile
      · intro hnodup x hx
        rw [List.map_cons, List.nodup_cons] at hnodup
        exact ih5 hnodup.2 x hx

theorem link_not_mem_linkOriginals {n : String} {ck : Digest} {r : FsPath}
    {ls : List Node} : (Node.link n ck r) ∉ linkOriginals ls := by
  intro h
  unfold linkOriginals at h
  obtain ⟨l, -, hl⟩ := List.mem_map.1 h
  exact Node.noConfusion hl

theorem filter_ne_filter_not_mem (cs : List Node) (f : Node) (rs : List Node) :
    (cs.filter (fun x => decide (x ≠ f))).filter (fun c => decide (c ∉ rs)) =
      cs.filter (fun c => decide (c ∉ f :: rs)) := by
  induction cs with
  | nil => rfl
  | cons c rest ih =>
    by_cases hcf : c = f
    · subst hcf
      simp [List.filter_cons, ih]
      exact List.filter_congr fun x _ => Bool.and_comm _ _
    · by_cases hcr : c ∈ rs
      · simp [List.filter_cons, hcf, hcr, ih]
        exact List.filter_congr fun x _ => Bool.and_comm _ _
      · simp [List.filter_cons, hcf, hcr, ih]
        exact List.filter_congr fun x _ => Bool.and_comm _ _

/-- The file loop of `prune_children` computes exactly the outcomes of
`fileOutcomes`: replaced children are filtered out of the child list (all
other children keeping their relative order) and the created links are
appended at the end, in processing order. -/
theorem prune_files_eq (p : FsPath) : ∀ (todo cs : List Node) (reg : Reg),
    wfReg reg →
    prune_files p todo cs reg =
      some (cs.filter (fun c => decide (c ∉ linkOriginals (fileOutcomes p reg todo).2.1))
              ++ (fileOutcomes p reg todo).2.1,
            (fileOutcomes p reg todo).2.2) := by
  intro todo
  induction todo with
  | nil =>
    intro cs reg hwf
    rw [prune_files_nil, fileOutcomes_nil]
    simp [linkOriginals]
  | cons c rest ih =>
    intro cs reg hwf
    match c with
    | .file n ck =>
      cases hf : regFind reg ck with
      | some canon =>
        have hcanon2 : canon.2 = ck := hwf _ (regFind_mem hf)
        have hmk : mkFileLink (.file n ck) canon = some (.link n ck canon.1) := by
          simp only [mkFileLink]
          rw [if_pos hcanon2.symm]
        rw [prune_files_found hf]
        have hrc : replace_child cs (.file n ck) canon =
            some (prune_child cs (.file n ck) ++ [.link n ck canon.1]) := by
          unfold replace_child
          rw [hmk]
          rfl
        rw [hrc]
        simp only [Option.some_bind]
        rw [ih _ reg hwf]
        rw [fileOutcomes_file, hf]
        simp only
        congr 1
        unfold prune_child
        rw [List.filter_append]
        have hlink : (([Node.link n ck canon.1] : List Node).filter
            (fun c => decide (c ∉ linkOriginals (fileOutcomes p reg rest).2.1))) =
            [Node.link n ck canon.1] := by
          simp [link_not_mem_linkOriginals]
        rw [hlink]
        have hlo : linkOriginals (Node.link n ck canon.1 ::
            (fileOutcomes p reg rest).2.1) =
            Node.file n ck :: linkOriginals (fileOutcomes p reg rest).2.1 := by
          unfold linkOriginals
          rw [List.map_cons]
          rfl
        rw [hlo, filter_ne_filter_not_mem, List.append_assoc, List.singleton_append]
      | none =>
        have hwf' : wfReg (reg ++ [(ck, (p ++ [n], ck))]) :=
          wfReg_append_single hwf ck (p ++ [n])
        rw [prune_files_cons_file, hf, fileOutcomes_file, hf]
        exact ih cs _ hwf'
    | .dir n k =>
      rw [prune_files_cons_dir, fileOutcomes_dir]
      exact ih cs reg hwf
    | .link n ck r =>
      rw [prune_files_cons_link, fileOutcomes_link]
      exact ih cs reg hwf

theorem step_names {cs : List Node} {f : Node}
    (hnodup : (cs.map Node.name).Nodup) (hmem : f ∈ cs) {l : Node}
    (hname : Node.name l = Node.name f) :
    ((cs.filter (fun x => decide (x ≠ f)) ++ [l]).map Node.name).Perm
      (cs.map Node.name) := by
  induction cs with
  | nil => cases hmem
  | cons c rest ih =>
    rw [List.map_cons, List.nodup_cons] at hnodup
    by_cases hcf : c = f
    · subst hcf
      have hrest : rest.filter (fun x => decide (x ≠ c)) = rest := by
        rw [List.filter_eq_self]
        intro x hx
        simp only [decide_eq_true_eq]
        intro hxc
        exact hnodup.1 (hxc ▸ List.mem_map_of_mem Node.name hx)
      have hstep : (c :: rest).filter (fun x => decide (x ≠ c)) = rest := by
        rw [List.filter_cons]
        simp [hrest]
        intro a ha hac
        subst hac
        exact hnodup.1 (List.mem_map_of_mem Node.name ha)
      rw [hstep, List.map_append]
      have hl : List.map Node.name [l] = [Node.name c] := by
        rw [List.map_cons, List.map_nil, hname]
      rw [hl, List.map_cons]
      exact List.perm_append_singleton _ _
    · have hstep : (c :: rest).filter (fun x => decide (x ≠ f)) =
          c :: rest.filter (fun x => decide (x ≠ f)) := by
        rw [List.filter_cons]
        simp [hcf]
      have hf' : f ∈ rest := by
        rcases List.mem_cons.1 hmem with heq | hf'
        · exact absurd heq.symm hcf
        · exact hf'
      rw [hstep, List.cons_append, List.map_cons, List.map_cons]
      exact (ih hnodup.2 hf').cons _

/-- The file loop permutes each directory's child names: a replaced file is
removed and a link with the same name is appended. -/
theorem prune_files_names (p : FsPath) : ∀ (todo cs cs' : List Node) (reg r' : Reg),
    (cs.map Node.name).Nodup → todo.Sublist cs →
    prune_files p todo cs reg = some (cs', r') →
    (cs'.map Node.name).Perm (cs.map Node.name) := by
  intro todo
  induction todo with
  | nil =>
    intro cs cs' reg r' hnodup hsub h
    rw [prune_files_nil] at h
    simp only [Option.some_inj, Prod.mk.injEq] at h
    obtain ⟨rfl, rfl⟩ := h
    exact List.Perm.refl _
  | cons c rest ih =>
    intro cs cs' reg r' hnodup hsub h
    match c with
    | .file n ck =>
      cases hf : regFind reg ck with
      | some canon =>
        rw [prune_files_found hf] at h
        cases hmk : mkFileLink (.file n ck) canon with
        | none =>
          rw [show replace_child cs (.file n ck) canon = none from by
            unfold replace_child; rw [hmk]; rfl] at h
          cases h
        | some l =>
          obtain ⟨hl, -⟩ := mkFileLink_file_some hmk
          subst hl
          rw [show replace_child cs (.file n ck) canon =
              some (prune_child cs (.file n ck) ++ [.link n ck canon.1]) from by
            unfold replace_child; rw [hmk]; rfl] at h
          simp only [Option.some_bind] at h
          have hmemf : Node.file n ck ∈ cs := hsub.subset (List.mem_cons_self _ _)
          have hperm := step_names hnodup hmemf
            (l := Node.link n ck canon.1) rfl
          have hnodup2 : ((prune_child cs (.file n ck) ++
              [Node.link n ck canon.1]).map Node.name).Nodup := by
            unfold prune_child
            exact (List.Perm.nodup_iff hperm).2 hnodup
          have htodonames : ((Node.file n ck :: rest).map Node.name).Nodup :=
            List.Nodup.sublist (hsub.map Node.name) hnodup
          have hfname : n ∉ rest.map Node.name := by
            rw [List.map_cons, List.nodup_cons] at htodonames
            exact htodonames.1
          have hrest_ne : ∀ x ∈ rest, decide (x ≠ Node.file n ck) = true := by
            intro x hx
            simp only [decide_eq_true_eq]
            intro heq
            subst heq
            exact hfname (List.mem_map_of_mem Node.name hx)
          have h1 : rest.Sublist (prune_child cs (.file n ck)) := by
            unfold prune_child
            have heq : rest.filter (fun x => decide (x ≠ Node.file n ck)) = rest :=
              List.filter_eq_self.2 hrest_ne
            rw [← heq]
            exact List.Sublist.filter _ ((List.sublist_cons_self _ _).trans hsub)
          have hrestsub : rest.Sublist (prune_child cs (.file n ck) ++
              [Node.link n ck canon.1]) :=
            h1.trans (List.sublist_append_left _ _)
          have hp := ih _ _ _ _ hnodup2 hrestsub h
          unfold prune_child at hp
          exact hp.trans hperm
      | none =>
        rw [prune_files_notfound hf] at h
        exact ih _ _ _ _ hnodup ((List.sublist_cons_self _ _).trans hsub) h
    | .dir n k =>
      rw [prune_files_cons_dir] at h
      exact ih _ _ _ _ hnodup ((List.sublist_cons_self _ _).trans hsub) h
    | .link n ck r =>
      rw [prune_files_cons_link] at h
      exact ih _ _ _ _ hnodup ((List.sublist_cons_self _ _).trans hsub) h

/-- C9: when the file loop of a prune pass replaces duplicate file children
with Link nodes, each replaced child is removed from its position in the
parent's ordered child list, the relative order of all children that were
not replaced is preserved by the filtering, and every created Link node is
appended at the end, after all non-replaced children. -/
theorem replace_child_appends_links :
    ∀ (p : FsPath) (cs cs' : List Node) (reg r' : Reg), wfReg reg →
      prune_files p (file_children cs) cs reg = some (cs', r') →
      ∃ replaced links : List Node,
        (∀ x ∈ replaced, x.isFile = true ∧ x ∈ file_children cs) ∧
        (∀ l ∈ links, l.isLink = true) ∧
        replaced.length = links.length ∧
        cs' = cs.filter (fun c => decide (c ∉ replaced)) ++ links := by
  intro p cs cs' reg r' hwf h
  rw [prune_files_eq p (file_children cs) cs reg hwf] at h
  simp only [Option.some_inj, Prod.mk.injEq] at h
  obtain ⟨hcs, -⟩ := h
  obtain ⟨-, -, ih3, -, -⟩ := fileOutcomes_spec p (file_children cs) reg hwf
  refine ⟨linkOriginals (fileOutcomes p reg (file_children cs)).2.1,
    (fileOutcomes p reg (file_children cs)).2.1, ?_, ?_, ?_, hcs.symm⟩
  · intro x hx
    unfold linkOriginals at hx
    obtain ⟨l, hl, hlx⟩ := List.mem_map.1 hx
    obtain ⟨n, ck, r0, rfl, hmem, -⟩ := ih3 l hl
    subst hlx
    exact ⟨rfl, hmem⟩
  · intro l hl
    obtain ⟨n, ck, r0, rfl, -, -⟩ := ih3 l hl
    rfl
  · unfold linkOriginals
    rw [List.length_map]

/-- Witness for `replace_child_appends_links`: with duplicate files A and B
around a directory child, B is removed from its slot and the new link is
appended at the end. -/
theorem replace_child_appends_links_witness :
    ∃ replaced links : List Node,
      (∀ x ∈ replaced, x.isFile = true ∧
        x ∈ file_children [Node.file "A" [1], .dir "d" [], .file "B" [1]]) ∧
      (∀ l ∈ links, l.isLink = true) ∧
      replaced.length = links.length ∧
      [Node.file "A" [1], .dir "d" [], .link "B" [1] ["r", "A"]] =
        ([Node.file "A" [1], .dir "d" [], .file "B" [1]].filter
          (fun c => decide (c ∉ replaced))) ++ links :=
  replace_child_appends_links ["r"]
    [Node.file "A" [1], .dir "d" [], .file "B" [1]]
    [Node.file "A" [1], .dir "d" [], .link "B" [1] ["r", "A"]]
    [] [([1], (["r", "A"], [1]))]
    (fun e he => absurd he (List.not_mem_nil e)) (by decide)

/-! ## Re-assembly of the child list after the recursive descent -/

theorem subst_dirs_nil (ds : List Node) : subst_dirs [] ds = [] := rfl

theorem subst_dirs_cons_dir (n : String) (k : List Node) (rest : List Node)
    (d : Node) (ds : List Node) :
    subst_dirs (.dir n k :: rest) (d :: ds) = d :: subst_dirs rest ds := rfl

theorem subst_dirs_cons_file (n : String) (ck : Digest) (rest ds : List Node) :
    subst_dirs (.file n ck :: rest) ds = .file n ck :: subst_dirs rest ds := rfl

theorem subst_dirs_cons_link (n : String) (ck : Digest) (r : FsPath)
    (rest ds : List Node) :
    subst_dirs (.link n ck r :: rest) ds = .link n ck r :: subst_dirs rest ds := rfl

theorem directory_children_nil : directory_children [] = [] := rfl

theorem directory_children_cons_dir (n : String) (k : List Node)
    (rest : List Node) :
    directory_children (.dir n k :: rest) = .dir n k :: directory_children rest := by
  simp [directory_children, Node.isDir]

theorem directory_children_cons_file (n : String) (ck : Digest)
    (rest : List Node) :
    directory_children (.file n ck :: rest) = directory_children rest := by
  simp [directory_children, Node.isDir]

theorem directory_children_cons_link (n : String) (ck : Digest) (r : FsPath)
    (rest : List Node) :
    directory_children (.link n ck r :: rest) = directory_children rest := by
  simp [directory_children, Node.isDir]

theorem subst_dirs_spec (p : FsPath) : ∀ (as ds : List Node),
    List.Forall₂ (fun d d' => Node.name d' = Node.name d ∧ d'.isDir = true)
      (directory_children as) ds →
    files_of p (subst_dirs as ds) = files_of p as ∧
    links_of p (subst_dirs as ds) = links_of p as ∧
    fileEntriesL p (subst_dirs as ds) = fileEntriesL p ds ∧
    linkEntriesL p (subst_dirs as ds) = linkEntriesL p ds ∧
    (subst_dirs as ds).map Node.name = as.map Node.name ∧
    (∀ x ∈ subst_dirs as ds, x ∈ as ∨ x ∈ ds) := by
  intro as
  induction as with
  | nil =>
    intro ds hF
    rw [directory_children_nil] at hF
    cases hF
    rw [subst_dirs_nil]
    refine ⟨rfl, rfl, rfl, rfl, rfl, ?_⟩
    intro x hx
    cases hx
  | cons a rest ih =>
    intro ds hF
    match a with
    | .dir n k =>
      rw [directory_children_cons_dir] at hF
      cases hF with
      | cons hR hF' =>
        rename_i d ds'
        obtain ⟨hname, hdir⟩ := hR
        obtain ⟨n', k', rfl⟩ := isDir_iff.1 hdir
        obtain ⟨e1, e2, e3, e4, e5, e6⟩ := ih ds' hF'
        rw [subst_dirs_cons_dir]
        refine ⟨?_, ?_, ?_, ?_, ?_, ?_⟩
        · rw [files_of_cons_dir, files_of_cons_dir, e1]
        · rw [links_of_cons_dir, links_of_cons_dir, e2]
        · rw [fileEntriesL_cons, fileEntriesL_cons, e3]
        · rw [linkEntriesL_cons, linkEntriesL_cons, e4]
        · rw [List.map_cons, List.map_cons, e5, hname]
        · intro x hx
          rcases List.mem_cons.1 hx with rfl | hx'
          · exact Or.inr (List.mem_cons_self _ _)
          · rcases e6 x hx' with h | h
            · exact Or.inl (List.mem_cons_of_mem _ h)
            · exact Or.inr (List.mem_cons_of_mem _ h)
    | .file n ck =>
      rw [directory_children_cons_file] at hF
      obtain ⟨e1, e2, e3, e4, e5, e6⟩ := ih ds hF
      rw [subst_dirs_cons_file]
      refine ⟨?_, ?_, ?_, ?_, ?_, ?_⟩
      · rw [files_of_cons_file, files_of_cons_file, e1]
      · rw [links_of_cons_file, links_of_cons_file, e2]
      · rw [fileEntriesL_cons, fileEntries_file, List.nil_append, e3]
      · rw [linkEntriesL_cons, linkEntries_file, List.nil_append, e4]
      · rw [List.map_cons, List.map_cons, e5]
      · intro x hx
        rcases List.mem_cons.1 hx with rfl | hx'
        · exact Or.inl (List.mem_cons_self _ _)
        · rcases e6 x hx' with h | h
          · exact Or.inl (List.mem_cons_of_mem _ h)
          · exact Or.inr h
    | .link n ck r =>
      rw [directory_children_cons_link] at hF
      obtain ⟨e1, e2, e3, e4, e5, e6⟩ := ih ds hF
      rw [subst_dirs_cons_link]
      refine ⟨?_, ?_, ?_, ?_, ?_, ?_⟩
      · rw [files_of_cons_link, files_of_cons_link, e1]
      · rw [links_of_cons_link, links_of_cons_link, e2]
      · rw [fileEntriesL_cons, fileEntries_link, List.nil_append, e3]
      · rw [linkEntriesL_cons, linkEntries_link, List.nil_append, e4]
      · rw [List.map_cons, List.map_cons, e5]
      · intro x hx
        rcases List.mem_cons.1 hx with rfl | hx'
        · exact Or.inl (List.mem_cons_self _ _)
        · rcases e6 x hx' with h | h
          · exact Or.inl (List.mem_cons_of_mem _ h)
          · exact Or.inr h

/-! ## Prerequisites for the whole-pass characterization -/

theorem fileOutcomes_found {p : FsPath} {reg : Reg} {n : String} {ck : Digest}
    {rest : List Node} {canon : FsPath × Digest} (hf : regFind reg ck = some canon) :
    fileOutcomes p reg (.file n ck :: rest) =
      ((fileOutcomes p reg rest).1,
       .link n ck canon.1 :: (fileOutcomes p reg rest).2.1,
       (fileOutcomes p reg rest).2.2) := by
  rw [fileOutcomes_file, hf]

theorem fileOutcomes_notfound {p : FsPath} {reg : Reg} {n : String} {ck : Digest}
    {rest : List Node} (hf : regFind reg ck = none) :
    fileOutcomes p reg (.file n ck :: rest) =
      (.file n ck :: (fileOutcomes p (reg ++ [(ck, (p ++ [n], ck))]) rest).1,
       (fileOutcomes p (reg ++ [(ck, (p ++ [n], ck))]) rest).2.1,
       (fileOutcomes p (reg ++ [(ck, (p ++ [n], ck))]) rest).2.2) := by
  rw [fileOutcomes_file, hf]

theorem fileOutcomes_reg_points (p : FsPath) : ∀ (todo : List Node) (reg : Reg),
    ∀ e ∈ (fileOutcomes p reg todo).2.2,
      e ∈ reg ∨ ∃ n ck, e = (ck, (p ++ [n], ck)) ∧
        Node.file n ck ∈ (fileOutcomes p reg todo).1 := by
  intro todo
  induction todo with
  | nil =>
    intro reg e he
    rw [fileOutcomes_nil] at he
    exact Or.inl he
  | cons c rest ih =>
    intro reg e he
    match c with
    | .file n ck =>
      cases hf : regFind reg ck with
      | some canon =>
        rw [fileOutcomes_found hf] at he ⊢
        exact ih reg e he
      | none =>
        rw [fileOutcomes_notfound hf] at he ⊢
        rcases ih _ e he with hreg | ⟨n', ck', heq, hmem⟩
        · rcases List.mem_append.1 hreg with h | h
          · exact Or.inl h
          · rcases List.mem_singleton.1 h with rfl
            exact Or.inr ⟨n, ck, rfl, List.mem_cons_self _ _⟩
        · exact Or.inr ⟨n', ck', heq, List.mem_cons_of_mem _ hmem⟩
    | .dir n k =>
      rw [fileOutcomes_dir] at he ⊢
      exact ih reg e he
    | .link n ck r =>
      rw [fileOutcomes_link] at he ⊢
      exact ih reg e he

theorem mem_file_children_of {n : String} {ck : Digest} {cs : List Node}
    (h : Node.file n ck ∈ cs) : Node.file n ck ∈ file_children cs :=
  List.mem_filter.2 ⟨h, rfl⟩

theorem file_children_subset {cs : List Node} : file_children cs ⊆ cs :=
  (List.filter_sublist cs).subset

theorem directory_children_filter {cs : List Node} {q : Node → Bool}
    (h : ∀ c ∈ cs, c.isDir = true → q c = true) :
    directory_children (cs.filter q) = directory_children cs := by
  induction cs with
  | nil => rfl
  | cons c rest ih =>
    have ih' := ih (fun c hc => h c (List.mem_cons_of_mem _ hc))
    match c with
    | .file n ck =>
      rw [List.filter_cons, directory_children_cons_file]
      by_cases hq : q (.file n ck) = true
      · rw [if_pos hq, directory_children_cons_file]
        exact ih'
      · rw [if_neg (by simpa using hq)]
        exact ih'
    | .link n ck r =>
      rw [List.filter_cons, directory_children_cons_link]
      by_cases hq : q (.link n ck r) = true
      · rw [if_pos hq, directory_children_cons_link]
        exact ih'
      · rw [if_neg (by simpa using hq)]
        exact ih'
    | .dir n k =>
      rw [List.filter_cons, directory_children_cons_dir,
        if_pos (h _ (List.mem_cons_self _ _) rfl), directory_children_cons_dir, ih']

theorem directory_children_all_links {ls : List Node}
    (h : ∀ l ∈ ls, l.isLink = true) : directory_children ls = [] := by
  unfold directory_children
  rw [List.filter_eq_nil]
  intro l hl
  obtain ⟨n, ck, r, rfl⟩ := isLink_iff.1 (h l hl)
  simp [Node.isDir]

theorem directory_children_append (a b : List Node) :
    directory_children (a ++ b) = directory_children a ++ directory_children b := by
  unfold directory_children
  rw [List.filter_append]

theorem files_of_append (p : FsPath) (a b : List Node) :
    files_of p (a ++ b) = files_of p a ++ files_of p b := by
  unfold files_of
  rw [List.filterMap_append]

theorem links_of_append (p : FsPath) (a b : List Node) :
    links_of p (a ++ b) = links_of p a ++ links_of p b := by
  unfold links_of
  rw [List.filterMap_append]

theorem prune_children_dir (pfx : FsPath) (n : String) (cs : List Node) (reg : Reg) :
    prune_children pfx (.dir n cs) reg =
      (prune_files (pfx ++ [n]) (file_children cs) cs reg).bind fun z =>
        (prune_dirs (pfx ++ [n]) cs z.2).bind fun w =>
          some (.dir n (subst_dirs z.1 w.1), w.2) := by
  rw [prune_children]
  rfl

theorem prune_dirs_nil (pfx : FsPath) (reg : Reg) :
    prune_dirs pfx [] reg = some ([], reg) := rfl

theorem prune_dirs_cons_dir (pfx : FsPath) (n : String) (k : List Node)
    (rest : List Node) (reg : Reg) :
    prune_dirs pfx (.dir n k :: rest) reg =
      (prune_children pfx (.dir n k) reg).bind fun z =>
        (prune_dirs pfx rest z.2).bind fun w => some (z.1 :: w.1, w.2) := by
  rw [prune_dirs]
  rfl

theorem prune_dirs_cons_file (pfx : FsPath) (n : String) (ck : Digest)
    (rest : List Node) (reg : Reg) :
    prune_dirs pfx (.file n ck :: rest) reg = prune_dirs pfx rest reg := by
  rw [prune_dirs]

theorem prune_dirs_cons_link (pfx : FsPath) (n : String) (ck : Digest) (r : FsPath)
    (rest : List Node) (reg : Reg) :
    prune_dirs pfx (.link n ck r :: rest) reg = prune_dirs pfx rest reg := by
  rw [prune_dirs]

theorem dir_not_mem_linkOriginals {n : String} {k : List Node}
    {ls : List Node} : (Node.dir n k) ∉ linkOriginals ls := by
  intro h
  unfold linkOriginals at h
  obtain ⟨l, -, hl⟩ := List.mem_map.1 h
  exact Node.noConfusion hl

mutual

/-- The whole-pass characterization of `prune_children`: the final registry
is the fold of the pass's file enumeration, file nodes of the result are
file nodes of the input whose checksums got registered under their own
paths, link nodes of the result point at registered canonical paths, new
registry entries point back at file nodes of the result, and file-or-link
paths of the result are exactly the file paths of the input. -/
theorem prune_spec (pfx : FsPath) (t : Node) (reg : Reg)
    (hn : nodupNames t = true) (hl : noLinks t = true) (hwf : wfReg reg) :
    ∃ t', prune_children pfx t reg = some (t', specFold reg (fileEntries pfx t)) ∧
      Node.name t' = Node.name t ∧ t'.isDir = t.isDir ∧ nodupNames t' = true ∧
      (∀ e ∈ fileEntries pfx t', e ∈ fileEntries pfx t) ∧
      (∀ e ∈ fileEntries pfx t',
        (e.2, (e.1, e.2)) ∈ specFold reg (fileEntries pfx t)) ∧
      (∀ l ∈ linkEntries pfx t', (l.1, l.2.1) ∈ fileEntries pfx t ∧
        (l.2.1, (l.2.2, l.2.1)) ∈ specFold reg (fileEntries pfx t)) ∧
      (∀ e ∈ specFold reg (fileEntries pfx t),
        e ∈ reg ∨ (e.2.1, e.1) ∈ fileEntries pfx t') ∧
      (∀ q, (q ∈ (fileEntries pfx t').map Prod.fst ∨
          q ∈ (linkEntries pfx t').map Prod.fst) ↔
        q ∈ (fileEntries pfx t).map Prod.fst) :=
  match t with
  | .file n ck => by
    refine ⟨.file n ck, ?_, rfl, rfl, rfl, ?_, ?_, ?_, ?_, ?_⟩
    · rw [fileEntries_file, specFold_nil, prune_children]
    · intro e he; exact he
    · intro e he; rw [fileEntries_file] at he; cases he
    · intro l hll; rw [linkEntries_file] at hll; cases hll
    · intro e he; rw [fileEntries_file, specFold_nil] at he; exact Or.inl he
    · intro q
      rw [fileEntries_file, linkEntries_file]
      simp
  | .link n ck r => by
    rw [show noLinks (.link n ck r) = false from by rw [noLinks]] at hl
    cases hl
  | .dir n cs => by
    obtain ⟨hnn, hnL⟩ := nodupNames_dir.1 hn
    have hlL : noLinksL cs = true := (noLinks_dir).1 hl
    obtain ⟨fo1, fo2, fo3, fo4, fo5⟩ :=
      fileOutcomes_spec (pfx ++ [n]) (file_children cs) reg hwf
    have hregpts := fileOutcomes_reg_points (pfx ++ [n]) (file_children cs) reg
    have hr1 : (fileOutcomes (pfx ++ [n]) reg (file_children cs)).2.2 =
        specFold reg (files_of (pfx ++ [n]) cs) := by
      rw [fo1, files_of_file_children]
    have hwf1 : wfReg (fileOutcomes (pfx ++ [n]) reg (file_children cs)).2.2 := by
      rw [hr1]; exact specFold_wf hwf _
    have hpp := prune_files_eq (pfx ++ [n]) (file_children cs) cs reg hwf
    obtain ⟨ds, hds, hF, hdsN, d2, d3, d4, d5, d6⟩ :=
      prune_dirs_spec (pfx ++ [n]) cs
        (fileOutcomes (pfx ++ [n]) reg (file_children cs)).2.2 hnL hlL hwf1
    have hlsLink : ∀ l ∈ (fileOutcomes (pfx ++ [n]) reg (file_children cs)).2.1,
        l.isLink = true := by
      intro l hll
      obtain ⟨n', ck', r0, rfl, -, -⟩ := fo3 l hll
      rfl
    have hfilterNoLink : ∀ c ∈ cs.filter (fun c => decide (c ∉ linkOriginals
        (fileOutcomes (pfx ++ [n]) reg (file_children cs)).2.1)), c.isLink = false := by
      intro c hc
      exact noLinks_not_isLink (noLinksL_iff.1 hlL c (List.mem_filter.1 hc).1)
    have hdc : directory_children
        (cs.filter (fun c => decide (c ∉ linkOriginals
          (fileOutcomes (pfx ++ [n]) reg (file_children cs)).2.1)) ++
          (fileOutcomes (pfx ++ [n]) reg (file_children cs)).2.1) =
        directory_children cs := by
      rw [directory_children_append, directory_children_all_links hlsLink,
        List.append_nil]
      apply directory_children_filter
      intro c hc hdirc
      obtain ⟨n', k', rfl⟩ := isDir_iff.1 hdirc
      simp [dir_not_mem_linkOriginals]
    have hF' : List.Forall₂
        (fun d d' => Node.name d' = Node.name d ∧ d'.isDir = true)
        (directory_children
          (cs.filter (fun c => decide (c ∉ linkOriginals
            (fileOutcomes (pfx ++ [n]) reg (file_children cs)).2.1)) ++
            (fileOutcomes (pfx ++ [n]) reg (file_children cs)).2.1)) ds := by
      rw [hdc]; exact hF
    obtain ⟨s1, s2, s3, s4, s5, s6⟩ := subst_dirs_spec (pfx ++ [n]) _ ds hF'
    -- the result node
    refine ⟨.dir n (subst_dirs
      (cs.filter (fun c => decide (c ∉ linkOriginals
        (fileOutcomes (pfx ++ [n]) reg (file_children cs)).2.1)) ++
        (fileOutcomes (pfx ++ [n]) reg (file_children cs)).2.1) ds), ?_, rfl, rfl,
      ?_, ?_, ?_, ?_, ?_, ?_⟩
    -- the computation and the final registry
    · rw [prune_children_dir, hpp, Option.some_bind, hds, Option.some_bind,
        fileEntries_dir, specFold_append, ← hr1]
    -- nodupNames of the result
    · apply nodupNames_dir.2
      constructor
      · rw [s5]
        have hperm := prune_files_names (pfx ++ [n]) (file_children cs) cs _ reg _
          hnn (List.filter_sublist cs) hpp
        exact (List.Perm.nodup_iff hperm).2 hnn
      · apply nodupNamesL_iff.2
        intro x hx
        rcases s6 x hx with hx1 | hx2
        · rcases List.mem_append.1 hx1 with hxf | hxl
          · exact nodupNamesL_iff.1 hnL x (List.mem_filter.1 hxf).1
          · obtain ⟨n', ck', r0, rfl, -, -⟩ := fo3 x hxl
            rfl
        · exact nodupNamesL_iff.1 hdsN x hx2
    -- [ii] files of the result are files of the input
    · intro e he
      rw [fileEntries_dir, s1, files_of_append,
        files_of_all_links hlsLink, List.append_nil, s3] at he
      rw [fileEntries_dir]
      rcases List.mem_append.1 he with hk | hd
      · obtain ⟨m, ck, hmem, rfl⟩ := mem_files_of.1 hk
        exact List.mem_append_left _
          (mem_files_of.2 ⟨m, ck, (List.mem_filter.1 hmem).1, rfl⟩)
      · exact List.mem_append_right _ (d2 e hd)
    -- [ii'] files of the result are registered under their own paths
    · intro e he
      rw [fileEntries_dir, s1, files_of_append,
        files_of_all_links hlsLink, List.append_nil, s3] at he
      rw [fileEntries_dir, specFold_append, ← hr1]
      rcases List.mem_append.1 he with hk | hd
      · obtain ⟨m, ck, hmem, rfl⟩ := mem_files_of.1 hk
        obtain ⟨hmemcs, hkeep⟩ := List.mem_filter.1 hmem
        have htodo : Node.file m ck ∈ file_children cs := mem_file_children_of hmemcs
        have hnotrs : Node.file m ck ∉ linkOriginals
            (fileOutcomes (pfx ++ [n]) reg (file_children cs)).2.1 := by
          simpa using hkeep
        rcases fo4 _ htodo rfl with hks | hrs
        · have := (fo2 _ hks).2.2
          simpa [Node.name, Node.checksum] using mem_specFold this _
        · exact absurd hrs hnotrs
      · exact d3 e hd
    -- [iii] links point at input files and registered canonicals
    · intro l hll
      rw [linkEntries_dir, s2, links_of_append,
        links_of_noLinks hfilterNoLink, List.nil_append, s4] at hll
      rw [fileEntries_dir, specFold_append, ← hr1]
      rcases List.mem_append.1 hll with htop | hsub
      · obtain ⟨m, ck, r0, hlmem, rfl⟩ := mem_links_of.1 htop
        obtain ⟨m', ck', r0', heq, hmemtodo, hreg⟩ := fo3 _ hlmem
        cases heq
        constructor
        · exact List.mem_append_left _
            (mem_files_of.2 ⟨m, ck, file_children_subset hmemtodo, rfl⟩)
        · exact mem_specFold hreg _
      · obtain ⟨h1, h2⟩ := d4 l hsub
        exact ⟨List.mem_append_right _ h1, h2⟩
    -- [i] registry entries point back at result files
    · intro e he
      rw [fileEntries_dir, specFold_append, ← hr1] at he
      rcases d5 e he with h1 | h2
      · rcases hregpts e h1 with hreg | ⟨m, ck, rfl, hks⟩
        · exact Or.inl hreg
        · right
          rw [fileEntries_dir, s1, files_of_append,
            files_of_all_links hlsLink, List.append_nil, s3]
          apply List.mem_append_left
          apply mem_files_of.2
          refine ⟨m, ck, ?_, rfl⟩
          apply List.mem_filter.2
          refine ⟨file_children_subset ((fo2 _ hks).2.1), ?_⟩
          have htodonodup : ((file_children cs).map Node.name).Nodup :=
            List.Nodup.sublist ((List.filter_sublist cs).map _) hnn
          simpa using fo5 htodonodup _ hks
      · right
        rw [fileEntries_dir, s1, files_of_append,
          files_of_all_links hlsLink, List.append_nil, s3]
        exact List.mem_append_right _ h2
    -- [iv] file-or-link paths of the result = file paths of the input
    · intro q
      rw [fileEntries_dir, s1, files_of_append, files_of_all_links hlsLink,
        List.append_nil, s3,
        linkEntries_dir, s2, links_of_append,
        links_of_noLinks hfilterNoLink, List.nil_append, s4,
        fileEntries_dir]
      rw [List.map_append, List.map_append, List.map_append]
      simp only [List.mem_append]
      constructor
      · rintro ((hk | hdsf) | (htl | hdsl))
        · obtain ⟨e, he, rfl⟩ := List.mem_map.1 hk
          obtain ⟨m, ck, hmem, rfl⟩ := mem_files_of.1 he
          exact Or.inl (List.mem_map_of_mem _
            (mem_files_of.2 ⟨m, ck, (List.mem_filter.1 hmem).1, rfl⟩))
        · exact Or.inr ((d6 q).1 (Or.inl hdsf))
        · obtain ⟨l, hll, rfl⟩ := List.mem_map.1 htl
          obtain ⟨m, ck, r0, hlmem, rfl⟩ := mem_links_of.1 hll
          obtain ⟨m', ck', r0', heq, hmemtodo, -⟩ := fo3 _ hlmem
          cases heq
          exact Or.inl (List.mem_map_of_mem _
            (mem_files_of.2 ⟨m, ck, file_children_subset hmemtodo, rfl⟩))
        · exact Or.inr ((d6 q).1 (Or.inr hdsl))
      · rintro (hA | hB)
        · obtain ⟨e, he, rfl⟩ := List.mem_map.1 hA
          obtain ⟨m, ck, hmem, rfl⟩ := mem_files_of.1 he
          have htodo : Node.file m ck ∈ file_children cs := mem_file_children_of hmem
          rcases fo4 _ htodo rfl with hks | hrs
          · left; left
            apply List.mem_map_of_mem
            apply mem_files_of.2
            refine ⟨m, ck, ?_, rfl⟩
            apply List.mem_filter.2
            refine ⟨hmem, ?_⟩
            have htodonodup : ((file_children cs).map Node.name).Nodup :=
              List.Nodup.sublist ((List.filter_sublist cs).map _) hnn
            simpa using fo5 htodonodup _ hks
          · right; left
            unfold linkOriginals at hrs
            obtain ⟨l, hll, hlo⟩ := List.mem_map.1 hrs
            obtain ⟨m', ck', r0', rfl, -, -⟩ := fo3 l hll
            have hinj : Node.file m' ck' = Node.file m ck := by
              simpa [Node.name, Node.checksum] using hlo
            cases hinj
            exact List.mem_map_of_mem _
              (mem_links_of.2 ⟨m, ck, r0', hll, rfl⟩)
        · rcases (d6 q).2 hB with h | h
          · exact Or.inl (Or.inr h)
          · exact Or.inr (Or.inr h)

theorem prune_dirs_spec (pfx : FsPath) (cs : List Node) (reg : Reg)
    (hnL : nodupNamesL cs = true) (hlL : noLinksL cs = true) (hwf : wfReg reg) :
    ∃ ds, prune_dirs pfx cs reg = some (ds, specFold reg (fileEntriesL pfx cs)) ∧
      List.Forall₂ (fun d d' => Node.name d' = Node.name d ∧ d'.isDir = true)
        (directory_children cs) ds ∧
      nodupNamesL ds = true ∧
      (∀ e ∈ fileEntriesL pfx ds, e ∈ fileEntriesL pfx cs) ∧
      (∀ e ∈ fileEntriesL pfx ds,
        (e.2, (e.1, e.2)) ∈ specFold reg (fileEntriesL pfx cs)) ∧
      (∀ l ∈ linkEntriesL pfx ds, (l.1, l.2.1) ∈ fileEntriesL pfx cs ∧
        (l.2.1, (l.2.2, l.2.1)) ∈ specFold reg (fileEntriesL pfx cs)) ∧
      (∀ e ∈ specFold reg (fileEntriesL pfx cs),
        e ∈ reg ∨ (e.2.1, e.1) ∈ fileEntriesL pfx ds) ∧
      (∀ q, (q ∈ (fileEntriesL pfx ds).map Prod.fst ∨
          q ∈ (linkEntriesL pfx ds).map Prod.fst) ↔
        q ∈ (fileEntriesL pfx cs).map Prod.fst) :=
  match cs with
  | [] => by
    refine ⟨[], ?_, ?_, rfl, ?_, ?_, ?_, ?_, ?_⟩
    · rw [prune_dirs_nil, fileEntriesL_nil, specFold_nil]
    · rw [directory_children_nil]
      exact List.Forall₂.nil
    · intro e he; rw [fileEntriesL_nil] at he; cases he
    · intro e he; rw [fileEntriesL_nil] at he; cases he
    · intro l hll; rw [linkEntriesL_nil] at hll; cases hll
    · intro e he
      rw [fileEntriesL_nil, specFold_nil] at he
      exact Or.inl he
    · intro q
      rw [fileEntriesL_nil, linkEntriesL_nil]
      simp
  | .file m ck :: rest => by
    have hnL' : nodupNamesL rest = true := by
      rw [show nodupNamesL (Node.file m ck :: rest) =
        (nodupNames (.file m ck) && nodupNamesL rest) from by rw [nodupNamesL]] at hnL
      exact (Bool.and_eq_true_iff.1 hnL).2
    have hlL' : noLinksL rest = true := by
      rw [show noLinksL (Node.file m ck :: rest) =
        (noLinks (.file m ck) && noLinksL rest) from by rw [noLinksL]] at hlL
      exact (Bool.and_eq_true_iff.1 hlL).2
    obtain ⟨ds, h1, h2, h3, h4, h5, h6, h7, h8⟩ :=
      prune_dirs_spec pfx rest reg hnL' hlL' hwf
    refine ⟨ds, ?_, ?_, h3, ?_, ?_, ?_, ?_, ?_⟩
    · rw [prune_dirs_cons_file, fileEntriesL_cons, fileEntries_file,
        List.nil_append]
      exact h1
    · rw [directory_children_cons_file]
      exact h2
    · intro e he
      rw [fileEntriesL_cons, fileEntries_file, List.nil_append]
      exact h4 e he
    · intro e he
      rw [fileEntriesL_cons, fileEntries_file, List.nil_append]
      exact h5 e he
    · intro l hll
      rw [fileEntriesL_cons, fileEntries_file, List.nil_append]
      exact h6 l hll
    · intro e he
      rw [fileEntriesL_cons, fileEntries_file, List.nil_append] at he
      exact h7 e he
    · intro q
      rw [fileEntriesL_cons, fileEntries_file, List.nil_append]
      exact h8 q
  | .link m ck r :: rest => by
    rw [show noLinksL (Node.link m ck r :: rest) =
      (noLinks (.link m ck r) && noLinksL rest) from by rw [noLinksL],
      show noLinks (.link m ck r) = false from by rw [noLinks]] at hlL
    cases hlL
  | .dir m k :: rest => by
    have hnhead : nodupNames (.dir m k) = true := by
      rw [show nodupNamesL (Node.dir m k :: rest) =
        (nodupNames (.dir m k) && nodupNamesL rest) from by rw [nodupNamesL]] at hnL
      exact (Bool.and_eq_true_iff.1 hnL).1
    have hnL' : nodupNamesL rest = true := by
      rw [show nodupNamesL (Node.dir m k :: rest) =
        (nodupNames (.dir m k) && nodupNamesL rest) from by rw [nodupNamesL]] at hnL
      exact (Bool.and_eq_true_iff.1 hnL).2
    have hlhead : noLinks (.dir m k) = true := by
      rw [show noLinksL (Node.dir m k :: rest) =
        (noLinks (.dir m k) && noLinksL rest) from by rw [noLinksL]] at hlL
      exact (Bool.and_eq_true_iff.1 hlL).1
    have hlL' : noLinksL rest = true := by
      rw [show noLinksL (Node.dir m k :: rest) =
        (noLinks (.dir m k) && noLinksL rest) from by rw [noLinksL]] at hlL
      exact (Bool.and_eq_true_iff.1 hlL).2
    obtain ⟨d', hd1, hdname, hddir, hdnodup, n4, n5, n6, n7, n8⟩ :=
      prune_spec pfx (.dir m k) reg hnhead hlhead hwf
    have hwfmid : wfReg (specFold reg (fileEntries pfx (.dir m k))) :=
      specFold_wf hwf _
    obtain ⟨ds, h1, h2, h3, h4, h5, h6, h7, h8⟩ :=
      prune_dirs_spec pfx rest (specFold reg (fileEntries pfx (.dir m k)))
        hnL' hlL' hwfmid
    have hregeq : specFold (specFold reg (fileEntries pfx (.dir m k)))
        (fileEntriesL pfx rest) =
        specFold reg (fileEntriesL pfx (.dir m k :: rest)) := by
      rw [fileEntriesL_cons, specFold_append]
    refine ⟨d' :: ds, ?_, ?_, ?_, ?_, ?_, ?_, ?_, ?_⟩
    · rw [prune_dirs_cons_dir, hd1, Option.some_bind, h1, Option.some_bind, hregeq]
    · rw [directory_children_cons_dir]
      exact List.Forall₂.cons ⟨hdname, by rw [hddir]; rfl⟩ h2
    · rw [show nodupNamesL (d' :: ds) = (nodupNames d' && nodupNamesL ds) from by
        rw [nodupNamesL]]
      rw [hdnodup, h3]
      rfl
    · intro e he
      rw [fileEntriesL_cons] at he ⊢
      rcases List.mem_append.1 he with hh | ht
      · exact List.mem_append_left _ (n4 e hh)
      · exact List.mem_append_right _ (h4 e ht)
    · intro e he
      rw [fileEntriesL_cons] at he
      rw [← hregeq]
      rcases List.mem_append.1 he with hh | ht
      · exact mem_specFold (n5 e hh) _
      · exact h5 e ht
    · intro l hll
      rw [linkEntriesL_cons] at hll
      rw [← hregeq, fileEntriesL_cons]
      rcases List.mem_append.1 hll with hh | ht
      · obtain ⟨ha, hb⟩ := n6 l hh
        exact ⟨List.mem_append_left _ ha, mem_specFold hb _⟩
      · obtain ⟨ha, hb⟩ := h6 l ht
        exact ⟨List.mem_append_right _ ha, hb⟩
    · intro e he
      rw [← hregeq] at he
      rcases h7 e he with hmid | hds
      · rcases n7 e hmid with hreg | hfile
        · exact Or.inl hreg
        · right
          rw [fileEntriesL_cons]
          exact List.mem_append_left _ hfile
      · right
        rw [fileEntriesL_cons]
        exact List.mem_append_right _ hds
    · intro q
      rw [fileEntriesL_cons, fileEntriesL_cons, linkEntriesL_cons]
      rw [List.map_append, List.map_append, List.map_append]
      simp only [List.mem_append]
      constructor
      · rintro ((hh | ht) | (hlh | hlt))
        · exact Or.inl ((n8 q).1 (Or.inl hh))
        · exact Or.inr ((h8 q).1 (Or.inl ht))
        · exact Or.inl ((n8 q).1 (Or.inr hlh))
        · exact Or.inr ((h8 q).1 (Or.inr hlt))
      · rintro (hh | ht)
        · rcases (n8 q).2 hh with h | h
          · exact Or.inl (Or.inl h)
          · exact Or.inr (Or.inl h)
        · rcases (h8 q).2 ht with h | h
          · exact Or.inl (Or.inr h)
          · exact Or.inr (Or.inr h)

end

/-! ## Association-list reads, membership, and distinct keys -/

theorem fsRead_ne_none_iff {fs : FS} {q : FsPath} :
    fsRead fs q ≠ none ↔ q ∈ fs.map Prod.fst := by
  induction fs with
  | nil => simp [fsRead]
  | cons e rest ih =>
    obtain ⟨a, c⟩ := e
    rw [fsRead_cons]
    by_cases hq : a = q
    · simp [hq]
    · have hq' : ¬ q = a := fun h => hq h.symm
      simp [hq, ih, hq']

theorem fsRead_mem {fs : FS} {q : FsPath} {c : Content}
    (h : fsRead fs q = some c) : (q, c) ∈ fs := by
  induction fs with
  | nil => simp [fsRead] at h
  | cons e rest ih =>
    obtain ⟨a, c'⟩ := e
    rw [fsRead_cons] at h
    by_cases hq : a = q
    · subst hq
      rw [if_pos rfl] at h
      cases h
      exact List.mem_cons_self _ _
    · rw [if_neg hq] at h
      exact List.mem_cons_of_mem _ (ih h)

theorem fsRead_eq_some_of_mem {fs : FS} (h : (fs.map Prod.fst).Nodup) :
    ∀ {q : FsPath} {c : Content}, (q, c) ∈ fs → fsRead fs q = some c := by
  induction fs with
  | nil =>
    intro q c hm
    cases hm
  | cons e rest ih =>
    obtain ⟨a, c'⟩ := e
    intro q c hm
    rw [List.map_cons] at h
    obtain ⟨hnotin, hnd⟩ := List.nodup_cons.1 h
    rcases List.mem_cons.1 hm with heq | hmem
    · cases heq
      rw [fsRead_cons, if_pos rfl]
    · by_cases hq : a = q
      · subst hq
        exact absurd (List.mem_map_of_mem Prod.fst hmem) hnotin
      · rw [fsRead_cons, if_neg hq]
        exact ih hnd hmem

theorem regFind_of_mem_nodup {reg : Reg} (h : (reg.map Prod.fst).Nodup)
    {k : Digest} {v : FsPath × Digest} (hm : (k, v) ∈ reg) :
    regFind reg k = some v := by
  induction reg with
  | nil => cases hm
  | cons e rest ih =>
    obtain ⟨k', v'⟩ := e
    rw [List.map_cons] at h
    obtain ⟨hnotin, hnd⟩ := List.nodup_cons.1 h
    rcases List.mem_cons.1 hm with heq | hmem
    · cases heq
      rw [regFind_cons, if_pos rfl]
    · by_cases hk : k' = k
      · subst hk
        exact absurd (List.mem_map_of_mem Prod.fst hmem) hnotin
      · rw [regFind_cons, if_neg hk]
        exact ih hnd hmem

/-! ## A tree with no links has no link entries -/

mutual

theorem linkEntries_eq_nil (pfx : FsPath) (t : Node) (h : noLinks t = true) :
    linkEntries pfx t = [] :=
  match t with
  | .file n ck => linkEntries_file pfx n ck
  | .link n ck r => by
    rw [show noLinks (.link n ck r) = false from by rw [noLinks]] at h
    cases h
  | .dir n cs => by
    have hL : noLinksL cs = true := (noLinks_dir).1 h
    rw [linkEntries_dir, linkEntriesL_eq_nil (pfx ++ [n]) cs hL,
      links_of_noLinks (fun c hc => noLinks_not_isLink (noLinksL_iff.1 hL c hc)),
      List.nil_append]

theorem linkEntriesL_eq_nil (p : FsPath) (cs : List Node) (h : noLinksL cs = true) :
    linkEntriesL p cs = [] :=
  match cs with
  | [] => linkEntriesL_nil p
  | c :: rest => by
    rw [show noLinksL (c :: rest) = (noLinks c && noLinksL rest) from by
      rw [noLinksL]] at h
    obtain ⟨h1, h2⟩ := Bool.and_eq_true_iff.1 h
    rw [linkEntriesL_cons, linkEntries_eq_nil p c h1,
      linkEntriesL_eq_nil p rest h2, List.nil_append]

end

/-! ## Paths a tree claims are pairwise distinct when names are

Within each directory of a name-nodup tree every child claims paths below
its own entry name, so the claims of distinct children cannot collide. -/

/-- The filesystem paths one directory child claims: its own path for a
file or link child and, for a directory child, everything inside it. -/
def childPaths (p : FsPath) : Node → List FsPath
  | .file n _ => [p ++ [n]]
  | .link n _ _ => [p ++ [n]]
  | .dir n cs => entryPaths p (.dir n cs)

def childPathsL (p : FsPath) : List Node → List FsPath
  | [] => []
  | c :: rest => childPaths p c ++ childPathsL p rest

theorem dirPaths_perm_childPathsL (p : FsPath) (cs : List Node) :
    (dirPaths p cs).Perm (childPathsL p cs) := by
  induction cs with
  | nil =>
    rw [show dirPaths p [] = [] from by
      rw [dirPaths, files_of_nil, links_of_nil, entryPathsL, fileEntriesL_nil,
        linkEntriesL_nil]
      rfl]
    rfl
  | cons c rest ih =>
    rw [List.perm_iff_count] at ih ⊢
    intro a
    have iha := ih a
    rw [dirPaths, entryPathsL] at iha ⊢
    rw [show childPathsL p (c :: rest) = childPaths p c ++ childPathsL p rest from
      by rw [childPathsL]]
    cases c with
    | file n ck =>
      rw [files_of_cons_file, links_of_cons_file, fileEntriesL_cons,
        fileEntries_file, linkEntriesL_cons, linkEntries_file,
        List.nil_append, List.nil_append]
      rw [show childPaths p (.file n ck) = [p ++ [n]] from by rw [childPaths]]
      simp [List.count_append, List.count_cons, List.count_nil] at iha ⊢
      omega
    | link n ck r =>
      rw [files_of_cons_link, links_of_cons_link, fileEntriesL_cons,
        fileEntries_link, linkEntriesL_cons, linkEntries_link,
        List.nil_append, List.nil_append]
      rw [show childPaths p (.link n ck r) = [p ++ [n]] from by rw [childPaths]]
      simp [List.count_append, List.count_cons, List.count_nil] at iha ⊢
      omega
    | dir n k =>
      rw [files_of_cons_dir, links_of_cons_dir, fileEntriesL_cons,
        linkEntriesL_cons]
      rw [show childPaths p (.dir n k) = entryPaths p (.dir n k) from by
        rw [childPaths]]
      rw [entryPaths]
      simp only [List.count_append, List.map_append] at iha ⊢
      omega

theorem entryPaths_dir_perm (pfx : FsPath) (n : String) (cs : List Node) :
    (entryPaths pfx (.dir n cs)).Perm (dirPaths (pfx ++ [n]) cs) := by
  rw [List.perm_iff_count]
  intro a
  rw [entryPaths, dirPaths, entryPathsL, fileEntries_dir, linkEntries_dir]
  simp only [List.count_append, List.map_append]
  omega

mutual

theorem entryPaths_shape (pfx : FsPath) (t : Node) :
    ∀ q ∈ entryPaths pfx t, ∃ s, q = pfx ++ [Node.name t] ++ s :=
  match t with
  | .file n ck => by
    rw [entryPaths, fileEntries_file, linkEntries_file]
    intro q hq
    cases hq
  | .link n ck r => by
    rw [entryPaths, fileEntries_link, linkEntries_link]
    intro q hq
    cases hq
  | .dir n cs => by
    rw [entryPaths, fileEntries_dir, linkEntries_dir]
    intro q hq
    rcases List.mem_append.1 hq with hf | hl
    · rw [List.map_append] at hf
      rcases List.mem_append.1 hf with hf1 | hf2
      · obtain ⟨e, he, rfl⟩ := List.mem_map.1 hf1
        obtain ⟨m, ck, -, rfl⟩ := mem_files_of.1 he
        exact ⟨[m], by simp [Node.name, List.append_assoc]⟩
      · obtain ⟨e, he, rfl⟩ := List.mem_map.1 hf2
        obtain ⟨c, hc, -, s, hs⟩ := entryPathsL_shape (pfx ++ [n]) cs e.1
          (List.mem_append_left _ (List.mem_map_of_mem Prod.fst he))
        exact ⟨[Node.name c] ++ s, by simp [Node.name, hs, List.append_assoc]⟩
    · rw [List.map_append] at hl
      rcases List.mem_append.1 hl with hl1 | hl2
      · obtain ⟨e, he, rfl⟩ := List.mem_map.1 hl1
        obtain ⟨m, ck, r, -, rfl⟩ := mem_links_of.1 he
        exact ⟨[m], by simp [Node.name, List.append_assoc]⟩
      · obtain ⟨e, he, rfl⟩ := List.mem_map.1 hl2
        obtain ⟨c, hc, -, s, hs⟩ := entryPathsL_shape (pfx ++ [n]) cs e.1
          (List.mem_append_right _ (List.mem_map_of_mem Prod.fst he))
        exact ⟨[Node.name c] ++ s, by simp [Node.name, hs, List.append_assoc]⟩

theorem entryPathsL_shape (p : FsPath) (cs : List Node) :
    ∀ q ∈ entryPathsL p cs, ∃ c, c ∈ cs ∧ c.isDir = true ∧
      ∃ s, q = p ++ [Node.name c] ++ s :=
  match cs with
  | [] => by
    rw [entryPathsL, fileEntriesL_nil, linkEntriesL_nil]
    intro q hq
    cases hq
  | c :: rest => by
    intro q hq
    rw [entryPathsL, fileEntriesL_cons, linkEntriesL_cons, List.map_append,
      List.map_append] at hq
    have hrest : q ∈ entryPathsL p rest →
        ∃ c', c' ∈ rest ∧ c'.isDir = true ∧
          ∃ s, q = p ++ [Node.name c'] ++ s := fun hmem => by
      obtain ⟨c', hc', hd', s, hs⟩ := entryPathsL_shape p rest q hmem
      exact ⟨c', hc', hd', s, hs⟩
    have hhead : q ∈ (fileEntries p c).map Prod.fst ∨
        q ∈ (linkEntries p c).map Prod.fst →
        ∃ s, q = p ++ [Node.name c] ++ s ∧ c.isDir = true := by
      intro hmem
      cases c with
      | file n ck =>
        rw [fileEntries_file, linkEntries_file] at hmem
        rcases hmem with h | h
        · cases h
        · cases h
      | link n ck r =>
        rw [fileEntries_link, linkEntries_link] at hmem
        rcases hmem with h | h
        · cases h
        · cases h
      | dir n k =>
        have hq' : q ∈ entryPaths p (.dir n k) := by
          rw [entryPaths]
          rcases hmem with h | h
          · exact List.mem_append_left _ h
          · exact List.mem_append_right _ h
        obtain ⟨s, hs⟩ := entryPaths_shape p (.dir n k) q hq'
        exact ⟨s, hs, rfl⟩
    rcases List.mem_append.1 hq with hf | hl
    · rcases List.mem_append.1 hf with h1 | h2
      · obtain ⟨s, hs, hd⟩ := hhead (Or.inl h1)
        exact ⟨c, List.mem_cons_self _ _, hd, s, hs⟩
      · obtain ⟨c', hc', hd', s, hs⟩ := hrest (by
          rw [entryPathsL]
          exact List.mem_append_left _ h2)
        exact ⟨c', List.mem_cons_of_mem _ hc', hd', s, hs⟩
    · rcases List.mem_append.1 hl with h1 | h2
      · obtain ⟨s, hs, hd⟩ := hhead (Or.inr h1)
        exact ⟨c, List.mem_cons_self _ _, hd, s, hs⟩
      · obtain ⟨c', hc', hd', s, hs⟩ := hrest (by
          rw [entryPathsL]
          exact List.mem_append_right _ h2)
        exact ⟨c', List.mem_cons_of_mem _ hc', hd', s, hs⟩

end

theorem path_head_eq {p : FsPath} {a b : String} {s s' : List String}
    (h : p ++ [a] ++ s = p ++ [b] ++ s') : a = b := by
  rw [List.append_assoc, List.append_assoc] at h
  have h2 : [a] ++ s = [b] ++ s' := by
    induction p with
    | nil => exact h
    | cons x xs ih =>
      rw [List.cons_append, List.cons_append] at h
      exact ih (by injection h)
  injection h2

theorem childPaths_shape (p : FsPath) (c : Node) :
    ∀ q ∈ childPaths p c, ∃ s, q = p ++ [Node.name c] ++ s := by
  cases c with
  | file n ck =>
    rw [show childPaths p (.file n ck) = [p ++ [n]] from by rw [childPaths]]
    intro q hq
    rcases List.mem_singleton.1 hq with rfl
    exact ⟨[], by simp [Node.name]⟩
  | link n ck r =>
    rw [show childPaths p (.link n ck r) = [p ++ [n]] from by rw [childPaths]]
    intro q hq
    rcases List.mem_singleton.1 hq with rfl
    exact ⟨[], by simp [Node.name]⟩
  | dir n k =>
    rw [show childPaths p (.dir n k) = entryPaths p (.dir n k) from by
      rw [childPaths]]
    exact entryPaths_shape p (.dir n k)

theorem childPathsL_shape (p : FsPath) (cs : List Node) :
    ∀ q ∈ childPathsL p cs, ∃ c, c ∈ cs ∧ ∃ s, q = p ++ [Node.name c] ++ s := by
  induction cs with
  | nil =>
    rw [show childPathsL p [] = [] from by rw [childPathsL]]
    intro q hq
    cases hq
  | cons c rest ih =>
    rw [show childPathsL p (c :: rest) = childPaths p c ++ childPathsL p rest from
      by rw [childPathsL]]
    intro q hq
    rcases List.mem_append.1 hq with hh | ht
    · obtain ⟨s, hs⟩ := childPaths_shape p c q hh
      exact ⟨c, List.mem_cons_self _ _, s, hs⟩
    · obtain ⟨c', hc', s, hs⟩ := ih q ht
      exact ⟨c', List.mem_cons_of_mem _ hc', s, hs⟩

mutual

theorem entryPaths_nodup (pfx : FsPath) (t : Node) (h : nodupNames t = true) :
    (entryPaths pfx t).Nodup :=
  match t with
  | .file n ck => by
    rw [entryPaths, fileEntries_file, linkEntries_file]
    exact List.nodup_nil
  | .link n ck r => by
    rw [entryPaths, fileEntries_link, linkEntries_link]
    exact List.nodup_nil
  | .dir n cs => by
    obtain ⟨hd, hL⟩ := nodupNames_dir.1 h
    have hperm := (entryPaths_dir_perm pfx n cs).trans
      (dirPaths_perm_childPathsL (pfx ++ [n]) cs)
    exact (List.Perm.nodup_iff hperm).2 (childPathsL_nodup (pfx ++ [n]) cs hL hd)

theorem childPathsL_nodup (p : FsPath) (cs : List Node)
    (hn : nodupNamesL cs = true) (hd : (cs.map Node.name).Nodup) :
    (childPathsL p cs).Nodup :=
  match cs with
  | [] => by
    rw [show childPathsL p [] = [] from by rw [childPathsL]]
    exact List.nodup_nil
  | c :: rest => by
    rw [show nodupNamesL (c :: rest) = (nodupNames c && nodupNamesL rest) from by
      rw [nodupNamesL]] at hn
    obtain ⟨hn1, hn2⟩ := Bool.and_eq_true_iff.1 hn
    rw [List.map_cons, List.nodup_cons] at hd
    rw [show childPathsL p (c :: rest) = childPaths p c ++ childPathsL p rest from
      by rw [childPathsL]]
    have hhead : (childPaths p c).Nodup := by
      cases c with
      | file n ck =>
        rw [show childPaths p (.file n ck) = [p ++ [n]] from by rw [childPaths]]
        exact List.nodup_singleton _
      | link n ck r =>
        rw [show childPaths p (.link n ck r) = [p ++ [n]] from by rw [childPaths]]
        exact List.nodup_singleton _
      | dir n k =>
        rw [show childPaths p (.dir n k) = entryPaths p (.dir n k) from by
          rw [childPaths]]
        exact entryPaths_nodup p (.dir n k) hn1
    refine List.Nodup.append hhead (childPathsL_nodup p rest hn2 hd.2) ?_
    intro q hq hq'
    obtain ⟨s, hs⟩ := childPaths_shape p c q hq
    obtain ⟨c', hc', s', hs'⟩ := childPathsL_shape p rest q hq'
    have heq : p ++ [Node.name c] ++ s = p ++ [Node.name c'] ++ s' := by
      rw [← hs, ← hs']
    have hne : Node.name c = Node.name c' := path_head_eq heq
    exact hd.1 (hne ▸ List.mem_map_of_mem Node.name hc')

end

/-- The file and link paths of a tree with pairwise-distinct directory
entry names: each group is duplicate-free and the two never overlap. -/
theorem file_link_paths_disjoint (pfx : FsPath) (t : Node)
    (h : nodupNames t = true) :
    ((fileEntries pfx t).map Prod.fst).Nodup ∧
    ((linkEntries pfx t).map Prod.fst).Nodup ∧
    (∀ q, q ∈ (fileEntries pfx t).map Prod.fst →
      q ∉ (linkEntries pfx t).map Prod.fst) := by
  have hnd := entryPaths_nodup pfx t h
  rw [entryPaths] at hnd
  obtain ⟨h1, h2, h3⟩ := List.nodup_append.1 hnd
  exact ⟨h1, h2, fun q hqf hql => h3 hqf hql⟩

/-! ## The restorer, characterized -/

theorem restore_links_nil (p : FsPath) (fs : FS) :
    restore_links p [] fs = (fs, true) := rfl

theorem restore_links_cons_file (p : FsPath) (n : String) (ck : Digest)
    (rest : List Node) (fs : FS) :
    restore_links p (.file n ck :: rest) fs = restore_links p rest fs := rfl

theorem restore_links_cons_dir (p : FsPath) (n : String) (k : List Node)
    (rest : List Node) (fs : FS) :
    restore_links p (.dir n k :: rest) fs = restore_links p rest fs := rfl

theorem restore_links_cons_link (p : FsPath) (n : String) (ck : Digest)
    (r : FsPath) (rest : List Node) (fs : FS) :
    restore_links p (.link n ck r :: rest) fs =
      match fsRead (fsWrite fs (p ++ [n]) []) r with
      | none => (fsWrite fs (p ++ [n]) [], false)
      | some c =>
        restore_links p rest (fsWrite (fsWrite fs (p ++ [n]) []) (p ++ [n]) c) :=
  rfl

theorem restore_file_eq (pfx : FsPath) (n : String) (ck : Digest) (fs : FS) :
    restore pfx (.file n ck) fs = (fs, true) := rfl

theorem restore_link_eq (pfx : FsPath) (n : String) (ck : Digest) (r : FsPath)
    (fs : FS) : restore pfx (.link n ck r) fs = (fs, true) := rfl

theorem restore_dir_eq (pfx : FsPath) (n : String) (cs : List Node) (fs : FS) :
    restore pfx (.dir n cs) fs =
      if (restore_links (pfx ++ [n]) cs fs).2 then
        restore_dirs (pfx ++ [n]) cs (restore_links (pfx ++ [n]) cs fs).1
      else ((restore_links (pfx ++ [n]) cs fs).1, false) := rfl

theorem restore_dirs_nil (p : FsPath) (fs : FS) :
    restore_dirs p [] fs = (fs, true) := rfl

theorem restore_dirs_cons_file (p : FsPath) (n : String) (ck : Digest)
    (rest : List Node) (fs : FS) :
    restore_dirs p (.file n ck :: rest) fs = restore_dirs p rest fs := rfl

theorem restore_dirs_cons_link (p : FsPath) (n : String) (ck : Digest)
    (r : FsPath) (rest : List Node) (fs : FS) :
    restore_dirs p (.link n ck r :: rest) fs = restore_dirs p rest fs := rfl

theorem restore_dirs_cons_dir (p : FsPath) (n : String) (k : List Node)
    (rest : List Node) (fs : FS) :
    restore_dirs p (.dir n k :: rest) fs =
      if (restore p (.dir n k) fs).2 then
        restore_dirs p rest (restore p (.dir n k) fs).1
      else ((restore p (.dir n k) fs).1, false) := rfl

/-- Restoring a directory's link children touches only those links' own
paths: every other path reads back unchanged, whether or not the loop
succeeded. -/
theorem restore_links_frame (p : FsPath) : ∀ (cs : List Node) (fs : FS)
    (q : FsPath), q ∉ (links_of p cs).map Prod.fst →
    fsRead (restore_links p cs fs).1 q = fsRead fs q
  | [], fs, q, _ => by rw [restore_links_nil]
  | .file n ck :: rest, fs, q, hq => by
    rw [links_of_cons_file] at hq
    rw [restore_links_cons_file]
    exact restore_links_frame p rest fs q hq
  | .dir n k :: rest, fs, q, hq => by
    rw [links_of_cons_dir] at hq
    rw [restore_links_cons_dir]
    exact restore_links_frame p rest fs q hq
  | .link n ck r :: rest, fs, q, hq => by
    rw [links_of_cons_link, List.map_cons] at hq
    have hq1 : q ≠ p ++ [n] := fun h => hq (h ▸ List.mem_cons_self _ _)
    have hq2 : q ∉ (links_of p rest).map Prod.fst :=
      fun h => hq (List.mem_cons_of_mem _ h)
    rw [restore_links_cons_link]
    cases hrd : fsRead (fsWrite fs (p ++ [n]) []) r with
    | none =>
      show fsRead (fsWrite fs (p ++ [n]) []) q = fsRead fs q
      rw [fsRead_fsWrite, if_neg hq1]
    | some c =>
      rw [restore_links_frame p rest _ q hq2, fsRead_fsWrite, if_neg hq1,
        fsRead_fsWrite, if_neg hq1]

/-- When the link paths of a directory's link children are pairwise
distinct, no canonical path is itself one of those link paths, and every
canonical file is present, the link loop succeeds and afterwards each link
path holds exactly the bytes its canonical path held before the loop. -/
theorem restore_links_ok (p : FsPath) : ∀ (cs : List Node) (fs : FS),
    ((links_of p cs).map Prod.fst).Nodup →
    (∀ e ∈ links_of p cs, e.2.2 ∉ (links_of p cs).map Prod.fst) →
    (∀ e ∈ links_of p cs, fsRead fs e.2.2 ≠ none) →
    (restore_links p cs fs).2 = true ∧
    ∀ e ∈ links_of p cs, fsRead (restore_links p cs fs).1 e.1 = fsRead fs e.2.2
  | [], fs, _, _, _ => by
    rw [restore_links_nil, links_of_nil]
    exact ⟨rfl, fun e he => absurd he (List.not_mem_nil e)⟩
  | .file n ck :: rest, fs, hnd, hdisj, hpres => by
    rw [links_of_cons_file] at hnd hdisj hpres ⊢
    rw [restore_links_cons_file]
    exact restore_links_ok p rest fs hnd hdisj hpres
  | .dir n k :: rest, fs, hnd, hdisj, hpres => by
    rw [links_of_cons_dir] at hnd hdisj hpres ⊢
    rw [restore_links_cons_dir]
    exact restore_links_ok p rest fs hnd hdisj hpres
  | .link n ck r :: rest, fs, hnd, hdisj, hpres => by
    rw [links_of_cons_link] at hnd hdisj hpres ⊢
    rw [List.map_cons] at hnd
    obtain ⟨hq0notin, hnd'⟩ := List.nodup_cons.1 hnd
    have hLdisj : r ∉ ((p ++ [n], ck, r) :: links_of p rest).map Prod.fst :=
      hdisj _ (List.mem_cons_self _ _)
    rw [List.map_cons] at hLdisj
    have hrq : r ≠ p ++ [n] := fun h => hLdisj (h ▸ List.mem_cons_self _ _)
    have hdisj' : ∀ e ∈ links_of p rest,
        e.2.2 ∉ (links_of p rest).map Prod.fst :=
      fun e he h => hdisj e (List.mem_cons_of_mem _ he)
        (by rw [List.map_cons]; exact List.mem_cons_of_mem _ h)
    have hne : ∀ e ∈ links_of p rest, e.2.2 ≠ p ++ [n] :=
      fun e he h => hdisj e (List.mem_cons_of_mem _ he)
        (by rw [List.map_cons, h]; exact List.mem_cons_self _ _)
    have hpr : fsRead fs r ≠ none := hpres _ (List.mem_cons_self _ _)
    cases hfr : fsRead fs r with
    | none => exact absurd hfr hpr
    | some c =>
    have hrd : fsRead (fsWrite fs (p ++ [n]) []) r = some c := by
      rw [fsRead_fsWrite, if_neg hrq, hfr]
    have hpres' : ∀ e ∈ links_of p rest,
        fsRead (fsWrite (fsWrite fs (p ++ [n]) []) (p ++ [n]) c) e.2.2 ≠ none :=
      fun e he => by
        rw [fsRead_fsWrite, if_neg (hne e he), fsRead_fsWrite, if_neg (hne e he)]
        exact hpres e (List.mem_cons_of_mem _ he)
    obtain ⟨okR, contR⟩ := restore_links_ok p rest
      (fsWrite (fsWrite fs (p ++ [n]) []) (p ++ [n]) c) hnd' hdisj' hpres'
    rw [restore_links_cons_link, hrd]
    constructor
    · exact okR
    · intro e he
      rcases List.mem_cons.1 he with rfl | hmem
      · show fsRead (restore_links p rest
          (fsWrite (fsWrite fs (p ++ [n]) []) (p ++ [n]) c)).1 (p ++ [n]) =
          fsRead fs r
        rw [restore_links_frame p rest _ (p ++ [n]) hq0notin, fsRead_fsWrite,
          if_pos rfl, hfr]
      · show fsRead (restore_links p rest
          (fsWrite (fsWrite fs (p ++ [n]) []) (p ++ [n]) c)).1 e.1 =
          fsRead fs e.2.2
        rw [contR e hmem, fsRead_fsWrite, if_neg (hne e hmem), fsRead_fsWrite,
          if_neg (hne e hmem)]

mutual

/-- `restore` writes only at the tree's link paths: every other path
reads back unchanged, whether or not the walk succeeded. -/
theorem restore_frame (pfx : FsPath) (t : Node) (fs : FS) (q : FsPath)
    (hq : q ∉ (linkEntries pfx t).map Prod.fst) :
    fsRead (restore pfx t fs).1 q = fsRead fs q :=
  match t with
  | .file n ck => by rw [restore_file_eq]
  | .link n ck r => by rw [restore_link_eq]
  | .dir n cs => by
    rw [linkEntries_dir, List.map_append] at hq
    have hq1 : q ∉ (links_of (pfx ++ [n]) cs).map Prod.fst :=
      fun h => hq (List.mem_append_left _ h)
    have hq2 : q ∉ (linkEntriesL (pfx ++ [n]) cs).map Prod.fst :=
      fun h => hq (List.mem_append_right _ h)
    rw [restore_dir_eq]
    by_cases hok : (restore_links (pfx ++ [n]) cs fs).2 = true
    · rw [if_pos hok, restore_dirs_frame (pfx ++ [n]) cs _ q hq2,
        restore_links_frame (pfx ++ [n]) cs fs q hq1]
    · rw [if_neg hok]
      exact restore_links_frame (pfx ++ [n]) cs fs q hq1

theorem restore_dirs_frame (p : FsPath) (cs : List Node) (fs : FS) (q : FsPath)
    (hq : q ∉ (linkEntriesL p cs).map Prod.fst) :
    fsRead (restore_dirs p cs fs).1 q = fsRead fs q :=
  match cs with
  | [] => by rw [restore_dirs_nil]
  | .file n ck :: rest => by
    rw [linkEntriesL_cons, linkEntries_file, List.nil_append] at hq
    rw [restore_dirs_cons_file]
    exact restore_dirs_frame p rest fs q hq
  | .link n ck r :: rest => by
    rw [linkEntriesL_cons, linkEntries_link, List.nil_append] at hq
    rw [restore_dirs_cons_link]
    exact restore_dirs_frame p rest fs q hq
  | .dir n k :: rest => by
    rw [linkEntriesL_cons, List.map_append] at hq
    have hq1 : q ∉ (linkEntries p (.dir n k)).map Prod.fst :=
      fun h => hq (List.mem_append_left _ h)
    have hq2 : q ∉ (linkEntriesL p rest).map Prod.fst :=
      fun h => hq (List.mem_append_right _ h)
    rw [restore_dirs_cons_dir]
    by_cases hok : (restore p (.dir n k) fs).2 = true
    · rw [if_pos hok, restore_dirs_frame p rest _ q hq2,
        restore_frame p (.dir n k) fs q hq1]
    · rw [if_neg hok]
      exact restore_frame p (.dir n k) fs q hq1

end

mutual

/-- When the tree's link paths are pairwise distinct, no canonical path
is a link path, and every canonical file is present, `restore` succeeds
and each link path afterwards holds the bytes its canonical path held
before the walk. -/
theorem restore_ok (pfx : FsPath) (t : Node) (fs : FS)
    (hnd : ((linkEntries pfx t).map Prod.fst).Nodup)
    (hdisj : ∀ l ∈ linkEntries pfx t, l.2.2 ∉ (linkEntries pfx t).map Prod.fst)
    (hpres : ∀ l ∈ linkEntries pfx t, fsRead fs l.2.2 ≠ none) :
    (restore pfx t fs).2 = true ∧
    ∀ l ∈ linkEntries pfx t, fsRead (restore pfx t fs).1 l.1 = fsRead fs l.2.2 :=
  match t with
  | .file n ck => by
    rw [linkEntries_file] at hpres ⊢
    rw [restore_file_eq]
    exact ⟨rfl, fun l hl => absurd hl (List.not_mem_nil l)⟩
  | .link n ck r => by
    rw [linkEntries_link] at hpres ⊢
    rw [restore_link_eq]
    exact ⟨rfl, fun l hl => absurd hl (List.not_mem_nil l)⟩
  | .dir n cs => by
    rw [linkEntries_dir] at hnd hdisj hpres ⊢
    rw [List.map_append] at hnd
    obtain ⟨hndA, hndB, hAB⟩ := List.nodup_append.1 hnd
    have hdisjA : ∀ e ∈ links_of (pfx ++ [n]) cs,
        e.2.2 ∉ (links_of (pfx ++ [n]) cs).map Prod.fst :=
      fun e he h => hdisj e (List.mem_append_left _ he)
        (by rw [List.map_append]; exact List.mem_append_left _ h)
    have hpresA : ∀ e ∈ links_of (pfx ++ [n]) cs, fsRead fs e.2.2 ≠ none :=
      fun e he => hpres e (List.mem_append_left _ he)
    obtain ⟨ok1, cont1⟩ := restore_links_ok (pfx ++ [n]) cs fs hndA hdisjA hpresA
    have hdisjB : ∀ l ∈ linkEntriesL (pfx ++ [n]) cs,
        l.2.2 ∉ (linkEntriesL (pfx ++ [n]) cs).map Prod.fst :=
      fun l hl h => hdisj l (List.mem_append_right _ hl)
        (by rw [List.map_append]; exact List.mem_append_right _ h)
    have hBnotA : ∀ l ∈ linkEntriesL (pfx ++ [n]) cs,
        l.2.2 ∉ (links_of (pfx ++ [n]) cs).map Prod.fst :=
      fun l hl h => hdisj l (List.mem_append_right _ hl)
        (by rw [List.map_append]; exact List.mem_append_left _ h)
    have hpresB : ∀ l ∈ linkEntriesL (pfx ++ [n]) cs,
        fsRead (restore_links (pfx ++ [n]) cs fs).1 l.2.2 ≠ none :=
      fun l hl => by
        rw [restore_links_frame (pfx ++ [n]) cs fs l.2.2 (hBnotA l hl)]
        exact hpres l (List.mem_append_right _ hl)
    obtain ⟨ok2, cont2⟩ := restore_dirs_ok (pfx ++ [n]) cs
      (restore_links (pfx ++ [n]) cs fs).1 hndB hdisjB hpresB
    rw [restore_dir_eq, if_pos ok1]
    refine ⟨ok2, ?_⟩
    intro l hl
    rcases List.mem_append.1 hl with hA | hB
    · have hl1 : l.1 ∉ (linkEntriesL (pfx ++ [n]) cs).map Prod.fst :=
        hAB (List.mem_map_of_mem Prod.fst hA)
      rw [restore_dirs_frame (pfx ++ [n]) cs _ l.1 hl1, cont1 l hA]
    · rw [cont2 l hB,
        restore_links_frame (pfx ++ [n]) cs fs l.2.2 (hBnotA l hB)]

theorem restore_dirs_ok (p : FsPath) (cs : List Node) (fs : FS)
    (hnd : ((linkEntriesL p cs).map Prod.fst).Nodup)
    (hdisj : ∀ l ∈ linkEntriesL p cs, l.2.2 ∉ (linkEntriesL p cs).map Prod.fst)
    (hpres : ∀ l ∈ linkEntriesL p cs, fsRead fs l.2.2 ≠ none) :
    (restore_dirs p cs fs).2 = true ∧
    ∀ l ∈ linkEntriesL p cs,
      fsRead (restore_dirs p cs fs).1 l.1 = fsRead fs l.2.2 :=
  match cs with
  | [] => by
    rw [linkEntriesL_nil] at hpres ⊢
    rw [restore_dirs_nil]
    exact ⟨rfl, fun l hl => absurd hl (List.not_mem_nil l)⟩
  | .file n ck :: rest => by
    rw [linkEntriesL_cons, linkEntries_file, List.nil_append] at hnd hdisj hpres ⊢
    rw [restore_dirs_cons_file]
    exact restore_dirs_ok p rest fs hnd hdisj hpres
  | .link n ck r :: rest => by
    rw [linkEntriesL_cons, linkEntries_link, List.nil_append] at hnd hdisj hpres ⊢
    rw [restore_dirs_cons_link]
    exact restore_dirs_ok p rest fs hnd hdisj hpres
  | .dir n k :: rest => by
    rw [linkEntriesL_cons] at hnd hdisj hpres ⊢
    rw [List.map_append] at hnd
    obtain ⟨hndC, hndD, hCD⟩ := List.nodup_append.1 hnd
    have hdisjC : ∀ l ∈ linkEntries p (.dir n k),
        l.2.2 ∉ (linkEntries p (.dir n k)).map Prod.fst :=
      fun l hl h => hdisj l (List.mem_append_left _ hl)
        (by rw [List.map_append]; exact List.mem_append_left _ h)
    have hpresC : ∀ l ∈ linkEntries p (.dir n k), fsRead fs l.2.2 ≠ none :=
      fun l hl => hpres l (List.mem_append_left _ hl)
    obtain ⟨ok1, cont1⟩ := restore_ok p (.dir n k) fs hndC hdisjC hpresC
    have hdisjD : ∀ l ∈ linkEntriesL p rest,
        l.2.2 ∉ (linkEntriesL p rest).map Prod.fst :=
      fun l hl h => hdisj l (List.mem_append_right _ hl)
        (by rw [List.map_append]; exact List.mem_append_right _ h)
    have hDnotC : ∀ l ∈ linkEntriesL p rest,
        l.2.2 ∉ (linkEntries p (.dir n k)).map Prod.fst :=
      fun l hl h => hdisj l (List.mem_append_right _ hl)
        (by rw [List.map_append]; exact List.mem_append_left _ h)
    have hpresD : ∀ l ∈ linkEntriesL p rest,
        fsRead (restore p (.dir n k) fs).1 l.2.2 ≠ none :=
      fun l hl => by
        rw [restore_frame p (.dir n k) fs l.2.2 (hDnotC l hl)]
        exact hpres l (List.mem_append_right _ hl)
    obtain ⟨ok2, cont2⟩ := restore_dirs_ok p rest
      (restore p (.dir n k) fs).1 hndD hdisjD hpresD
    rw [restore_dirs_cons_dir, if_pos ok1]
    refine ⟨ok2, ?_⟩
    intro l hl
    rcases List.mem_append.1 hl with hC | hD
    · have hl1 : l.1 ∉ (linkEntriesL p rest).map Prod.fst :=
        hCD (List.mem_map_of_mem Prod.fst hC)
      rw [restore_dirs_frame p rest _ l.1 hl1, cont1 l hC]
    · rw [cont2 l hD, restore_frame p (.dir n k) fs l.2.2 (hDnotC l hD)]

end

/-! ## The indexer, characterized -/

mutual

/-- Indexing a plain (regular files and directories only) entry tree with
distinct sibling names succeeds and yields a link-free, name-nodup tree
whose file enumeration matches the on-disk files, entry for entry, up to
order, with each file's checksum the digest of its on-disk bytes. -/
theorem index_spec (pfx : FsPath) (nm : String) (e : Entry)
    (hp : plainTree e = true) (hu : uniqueNamesE e = true) :
    ∃ t, index_directory nm e = some t ∧ Node.name t = nm ∧
      noLinks t = true ∧ nodupNames t = true ∧ t.isDir = e.isDirE ∧
      (∀ c0, e = Entry.file c0 → t = Node.file nm (sha256d c0)) ∧
      (e.isDirE = true →
        (fileEntries pfx t).Perm
          ((entry_files pfx nm e).map (fun pc => (pc.1, sha256d pc.2)))) :=
  match e with
  | .file c => by
    refine ⟨.file nm (sha256d c), ?_, rfl, rfl, rfl, rfl, ?_, ?_⟩
    · rw [index_directory]
    · intro c0 hc0
      cases hc0
      rfl
    · intro h
      cases h
  | .symlinkFile c => by
    rw [show plainTree (.symlinkFile c) = false from by rw [plainTree]] at hp
    cases hp
  | .symlinkDir es => by
    rw [show plainTree (.symlinkDir es) = false from by rw [plainTree]] at hp
    cases hp
  | .other => by
    rw [show plainTree Entry.other = false from by rw [plainTree]] at hp
    cases hp
  | .dir es => by
    rw [show plainTree (.dir es) = plainTreeL es from by rw [plainTree]] at hp
    rw [show uniqueNamesE (.dir es) =
      (decide ((es.map Prod.fst).Nodup) && uniqueNamesL es) from by
      rw [uniqueNamesE]] at hu
    obtain ⟨hu1, hu2⟩ := Bool.and_eq_true_iff.1 hu
    obtain ⟨cs, hcs, hnames, hnoL, hnodup, hcorr⟩ :=
      index_children_spec (pfx ++ [nm]) es hp hu2
    refine ⟨.dir nm cs, ?_, rfl, ?_, ?_, rfl, ?_, ?_⟩
    · rw [index_directory, hcs]
    · rw [noLinks]
      exact hnoL
    · rw [nodupNames]
      refine Bool.and_eq_true_iff.2 ⟨?_, hnodup⟩
      rw [hnames]
      exact hu1
    · intro c0 hc0
      cases hc0
    · intro _
      rw [fileEntries_dir, show entry_files pfx nm (.dir es) =
        entry_files_list (pfx ++ [nm]) es from by rw [entry_files]]
      exact hcorr

theorem index_children_spec (p : FsPath) (es : List (String × Entry))
    (hp : plainTreeL es = true) (hu : uniqueNamesL es = true) :
    ∃ cs, index_children es = some cs ∧ cs.map Node.name = es.map Prod.fst ∧
      noLinksL cs = true ∧ nodupNamesL cs = true ∧
      (files_of p cs ++ fileEntriesL p cs).Perm
        ((entry_files_list p es).map (fun pc => (pc.1, sha256d pc.2))) :=
  match es with
  | [] => by
    refine ⟨[], ?_, rfl, rfl, rfl, ?_⟩
    · rw [index_children]
    · rw [files_of_nil, fileEntriesL_nil, show entry_files_list p [] = [] from by
        rw [entry_files_list]]
      rfl
  | (n, e0) :: rest => by
    rw [show plainTreeL ((n, e0) :: rest) = (plainTree e0 && plainTreeL rest) from
      by rw [plainTreeL]] at hp
    obtain ⟨hp1, hp2⟩ := Bool.and_eq_true_iff.1 hp
    rw [show uniqueNamesL ((n, e0) :: rest) =
      (uniqueNamesE e0 && uniqueNamesL rest) from by rw [uniqueNamesL]] at hu
    obtain ⟨hu1, hu2⟩ := Bool.and_eq_true_iff.1 hu
    obtain ⟨t, ht, htn, htL, htd, hti, htf, htc⟩ := index_spec p n e0 hp1 hu1
    obtain ⟨cs, hcs, hnames, hnoL, hnodup, hcorr⟩ :=
      index_children_spec p rest hp2 hu2
    refine ⟨t :: cs, ?_, ?_, ?_, ?_, ?_⟩
    · rw [index_children, ht, hcs]
    · rw [List.map_cons, List.map_cons, htn, hnames]
    · rw [show noLinksL (t :: cs) = (noLinks t && noLinksL cs) from by
        rw [noLinksL], htL, hnoL]
      rfl
    · rw [show nodupNamesL (t :: cs) = (nodupNames t && nodupNamesL cs) from by
        rw [nodupNamesL], htd, hnodup]
      rfl
    · rw [show entry_files_list p ((n, e0) :: rest) =
        entry_files p n e0 ++ entry_files_list p rest from by
        rw [entry_files_list]]
      cases e0 with
      | symlinkFile c =>
        rw [show plainTree (.symlinkFile c) = false from by rw [plainTree]] at hp1
        cases hp1
      | symlinkDir es' =>
        rw [show plainTree (.symlinkDir es') = false from by rw [plainTree]] at hp1
        cases hp1
      | other =>
        rw [show plainTree Entry.other = false from by rw [plainTree]] at hp1
        cases hp1
      | file c =>
        cases htf c rfl
        rw [show entry_files p n (.file c) = [(p ++ [n], c)] from by
          rw [entry_files]]
        rw [files_of_cons_file, fileEntriesL_cons, fileEntries_file,
          List.nil_append, List.cons_append]
        simp only [List.map_append, List.map_cons, List.map_nil,
          List.singleton_append]
        exact List.Perm.cons _ hcorr
      | dir es' =>
        obtain ⟨n', k, rfl⟩ := isDir_iff.1 (by rw [hti]; rfl)
        have hn' : n' = n := by simpa [Node.name] using htn
        subst hn'
        have htc' := htc rfl
        rw [files_of_cons_dir, fileEntriesL_cons]
        rw [List.perm_iff_count] at htc' hcorr ⊢
        intro a
        have h1 := htc' a
        have h2 := hcorr a
        simp only [List.count_append, List.map_append] at h1 h2 ⊢
        omega

end

/-! ## Claim C4: deduplication with first-seen canonicals -/

/-- C4: after `prune_children` on a freshly indexed (link-free, name-nodup)
tree, no two file nodes of the result share a checksum; each surviving
file is the first file carrying its checksum in depth-first,
files-before-subdirectories enumeration order; the first file of every
checksum survives as a file node; every link sits at the path of a former
file of the input and references the first-seen file of its checksum; and
the file-plus-link paths of the result are exactly the file paths of the
input. -/
theorem prune_dedup_canonical (t : Node)
    (hn : nodupNames t = true) (hl : noLinks t = true) :
    ∃ t' reg, prune_children [] t [] = some (t', reg) ∧
      (∀ e1 ∈ fileEntries [] t', ∀ e2 ∈ fileEntries [] t',
        e1.2 = e2.2 → e1 = e2) ∧
      (∀ e ∈ fileEntries [] t', firstOccPath (fileEntries [] t) e.2 = some e.1) ∧
      (∀ ck p0, firstOccPath (fileEntries [] t) ck = some p0 →
        (p0, ck) ∈ fileEntries [] t') ∧
      (∀ l ∈ linkEntries [] t', (l.1, l.2.1) ∈ fileEntries [] t ∧
        firstOccPath (fileEntries [] t) l.2.1 = some l.2.2) ∧
      (∀ q, (q ∈ (fileEntries [] t').map Prod.fst ∨
          q ∈ (linkEntries [] t').map Prod.fst) ↔
        q ∈ (fileEntries [] t).map Prod.fst) := by
  have hwf : wfReg ([] : Reg) := fun x hx => absurd hx (List.not_mem_nil x)
  obtain ⟨t', hcomp, -, -, -, hii, hii', hiii, hi, hiv⟩ :=
    prune_spec [] t [] hn hl hwf
  have hkeys : ((specFold ([] : Reg) (fileEntries [] t)).map Prod.fst).Nodup :=
    specFold_keys_nodup (by simp) _
  have hfirst : ∀ (ck : Digest) (v : FsPath × Digest),
      (ck, v) ∈ specFold ([] : Reg) (fileEntries [] t) →
      firstOccPath (fileEntries [] t) ck = some v.1 := by
    intro ck v hv
    have h1 := regFind_of_mem_nodup hkeys hv
    rw [specFold_find_none (fileEntries [] t) (regFind_nil ck)] at h1
    rw [firstOccPath]
    cases hf : (fileEntries [] t).find? (fun x => decide (x.2 = ck)) with
    | none =>
      rw [hf] at h1
      cases h1
    | some x =>
      rw [hf] at h1
      simp only [Option.map_some'] at h1 ⊢
      cases h1
      rfl
  have hfound : ∀ (ck : Digest) (p0 : FsPath),
      firstOccPath (fileEntries [] t) ck = some p0 →
      (ck, (p0, ck)) ∈ specFold ([] : Reg) (fileEntries [] t) := by
    intro ck p0 h
    rw [firstOccPath] at h
    cases hf : (fileEntries [] t).find? (fun x => decide (x.2 = ck)) with
    | none =>
      rw [hf] at h
      cases h
    | some x =>
      rw [hf] at h
      simp only [Option.map_some'] at h
      cases h
      have hreg : regFind (specFold ([] : Reg) (fileEntries [] t)) ck =
          some (x.1, ck) := by
        rw [specFold_find_none (fileEntries [] t) (regFind_nil ck), hf]
        rfl
      exact regFind_mem hreg
  refine ⟨t', specFold ([] : Reg) (fileEntries [] t), hcomp, ?_, ?_, ?_, ?_, hiv⟩
  · intro e1 he1 e2 he2 hck
    have r1 := hii' e1 he1
    have r2 := hii' e2 he2
    rw [hck] at r1
    have hv := mem_reg_unique hkeys r1 r2
    injection hv with h11 h22
    exact Prod.ext h11 hck
  · intro e he
    exact hfirst e.2 (e.1, e.2) (hii' e he)
  · intro ck p0 h
    rcases hi _ (hfound ck p0 h) with h0 | h1
    · exact absurd h0 (List.not_mem_nil _)
    · exact h1
  · intro l hl
    obtain ⟨ha, hb⟩ := hiii l hl
    exact ⟨ha, hfirst l.2.1 (l.2.2, l.2.1) hb⟩

/-- Sibling files A, B, C with checksums x, x, y in enumeration order, the
concrete instance of spec testable property 3. -/
def c4Tree : Node :=
  .dir "root" [.file "A" [0], .file "B" [0], .file "C" [1]]

theorem prune_dedup_canonical_witness :
    nodupNames c4Tree = true ∧ noLinks c4Tree = true ∧
    ∃ t' reg, prune_children [] c4Tree [] = some (t', reg) ∧
      (∀ e1 ∈ fileEntries [] t', ∀ e2 ∈ fileEntries [] t',
        e1.2 = e2.2 → e1 = e2) ∧
      (∀ e ∈ fileEntries [] t',
        firstOccPath (fileEntries [] c4Tree) e.2 = some e.1) ∧
      (∀ ck p0, firstOccPath (fileEntries [] c4Tree) ck = some p0 →
        (p0, ck) ∈ fileEntries [] t') ∧
      (∀ l ∈ linkEntries [] t', (l.1, l.2.1) ∈ fileEntries [] c4Tree ∧
        firstOccPath (fileEntries [] c4Tree) l.2.1 = some l.2.2) ∧
      (∀ q, (q ∈ (fileEntries [] t').map Prod.fst ∨
          q ∈ (linkEntries [] t').map Prod.fst) ↔
        q ∈ (fileEntries [] c4Tree).map Prod.fst) :=
  ⟨by decide, by decide, prune_dedup_canonical c4Tree (by decide) (by decide)⟩

/-! ## Claim C1: the round trip -/

/-- C1: for every directory tree of regular files and directories with
distinct sibling names, `index_directory` succeeds, `prune_children`
succeeds, `apply_changes` on the indexed filesystem succeeds, `restore`
succeeds, and afterwards every path reads back exactly the bytes it held
before the prune — the round trip is byte-identical at every file. -/
theorem index_prune_apply_restore_roundtrip (nm : String) (e : Entry)
    (hp : plainTree e = true) (hu : uniqueNamesE e = true)
    (hd : e.isDirE = true) :
    ∃ t t' reg fsA mA fsR,
      index_directory nm e = some t ∧
      prune_children [] t [] = some (t', reg) ∧
      apply_changes [] t' (entry_files [] nm e) = (fsA, mA, true) ∧
      restore [] t' fsA = (fsR, true) ∧
      ∀ q, fsRead fsR q = fsRead (entry_files [] nm e) q := by
  obtain ⟨t, hidx, htn, htL, htnd, hti, -, htc⟩ := index_spec [] nm e hp hu
  have hcorr := htc hd
  have hFt := file_link_paths_disjoint [] t htnd
  have hFtnodup : ((fileEntries [] t).map Prod.fst).Nodup := hFt.1
  have hmapf : ∀ (l : FS),
      (l.map (fun pc => (pc.1, sha256d pc.2))).map Prod.fst = l.map Prod.fst := by
    intro l
    rw [List.map_map]
    rfl
  have hkeysperm : ((fileEntries [] t).map Prod.fst).Perm
      ((entry_files [] nm e).map Prod.fst) := by
    have h := hcorr.map Prod.fst
    rwa [hmapf] at h
  have hfs0keys : ((entry_files [] nm e).map Prod.fst).Nodup :=
    (List.Perm.nodup_iff hkeysperm).1 hFtnodup
  have hmemt : ∀ {x : FsPath} {ck : Digest}, (x, ck) ∈ fileEntries [] t →
      ∃ c, (x, c) ∈ entry_files [] nm e ∧ sha256d c = ck := by
    intro x ck hx
    have hm := hcorr.mem_iff.1 hx
    obtain ⟨⟨px, pc⟩, hpc, hfeq⟩ := List.mem_map.1 hm
    cases hfeq
    exact ⟨pc, hpc, rfl⟩
  have hread : ∀ {x : FsPath} {c : Content}, (x, c) ∈ entry_files [] nm e →
      fsRead (entry_files [] nm e) x = some c :=
    fun h => fsRead_eq_some_of_mem hfs0keys h
  have hkey : ∀ {x : FsPath}, x ∈ (fileEntries [] t).map Prod.fst →
      fsRead (entry_files [] nm e) x ≠ none := by
    intro x hx
    obtain ⟨ex, hex, rfl⟩ := List.mem_map.1 hx
    obtain ⟨c, hc, -⟩ := hmemt hex
    rw [hread hc]
    exact fun hcon => Option.noConfusion hcon
  have hwf : wfReg ([] : Reg) := fun x hx => absurd hx (List.not_mem_nil x)
  obtain ⟨t', hcomp, -, -, htnd', hii, hii', hiii, hi, hiv⟩ :=
    prune_spec [] t [] htnd htL hwf
  have hFt' := file_link_paths_disjoint [] t' htnd'
  have hLnodup' : ((linkEntries [] t').map Prod.fst).Nodup := hFt'.2.1
  have hdisj' := hFt'.2.2
  have hcanon : ∀ l ∈ linkEntries [] t', (l.2.2, l.2.1) ∈ fileEntries [] t' := by
    intro l hl
    rcases hi _ (hiii l hl).2 with h0 | h1
    · exact absurd h0 (List.not_mem_nil _)
    · exact h1
  obtain ⟨fr1, fr2, fr3, fr4, fr5⟩ := apply_spec [] t' (entry_files [] nm e)
  have hpresA : ∀ le ∈ linkEntries [] t',
      fsRead (entry_files [] nm e) le.1 ≠ none := by
    intro le hle
    exact hkey ((hiv le.1).1 (Or.inr (List.mem_map_of_mem Prod.fst hle)))
  obtain ⟨hA_ok, -⟩ := fr3 hpresA
  have happly : apply_changes [] t' (entry_files [] nm e) =
      ((apply_changes [] t' (entry_files [] nm e)).1,
       (apply_changes [] t' (entry_files [] nm e)).2.1, true) := by
    rw [← hA_ok]
  have hcanon_notlink : ∀ l ∈ linkEntries [] t',
      l.2.2 ∉ (linkEntries [] t').map Prod.fst := by
    intro l hl
    exact hdisj' l.2.2 (List.mem_map_of_mem Prod.fst (hcanon l hl))
  have hpresR : ∀ l ∈ linkEntries [] t',
      fsRead (apply_changes [] t' (entry_files [] nm e)).1 l.2.2 ≠ none := by
    intro l hl
    obtain ⟨c, hc, -⟩ := hmemt (hii _ (hcanon l hl))
    have h0 : fsRead (entry_files [] nm e) l.2.2 = some c := hread hc
    rcases fr2 l.2.2 with h | h
    · rw [h, h0]
      exact fun hcon => Option.noConfusion hcon
    · rw [h]
      exact fun hcon => Option.noConfusion hcon
  obtain ⟨hR_ok, hR_cont⟩ := restore_ok [] t'
    (apply_changes [] t' (entry_files [] nm e)).1 hLnodup' hcanon_notlink hpresR
  have hrestore : restore [] t' (apply_changes [] t' (entry_files [] nm e)).1 =
      ((restore [] t' (apply_changes [] t' (entry_files [] nm e)).1).1, true) := by
    rw [← hR_ok]
  refine ⟨t, t', specFold ([] : Reg) (fileEntries [] t),
    (apply_changes [] t' (entry_files [] nm e)).1,
    (apply_changes [] t' (entry_files [] nm e)).2.1,
    (restore [] t' (apply_changes [] t' (entry_files [] nm e)).1).1,
    hidx, hcomp, happly, hrestore, ?_⟩
  intro q
  by_cases hq : q ∈ (linkEntries [] t').map Prod.fst
  · obtain ⟨l, hl, rfl⟩ := List.mem_map.1 hq
    rw [hR_cont l hl]
    have hfr : ∀ e2 ∈ linkEntries [] t', l.2.2 ≠ e2.1 := by
      intro e2 he2 hne
      apply hcanon_notlink l hl
      rw [hne]
      exact List.mem_map_of_mem Prod.fst he2
    rw [fr1 l.2.2 hfr]
    obtain ⟨c1, hc1, hd1⟩ := hmemt (hiii l hl).1
    obtain ⟨c2, hc2, hd2⟩ := hmemt (hii _ (hcanon l hl))
    have hc12 : c2 = c1 := sha256d_inj (hd2.trans hd1.symm)
    rw [hread hc2, hread hc1, hc12]
  · rw [restore_frame [] t' _ q hq]
    have hfr : ∀ e2 ∈ linkEntries [] t', q ≠ e2.1 := by
      intro e2 he2 hne
      apply hq
      rw [hne]
      exact List.mem_map_of_mem Prod.fst he2
    rw [fr1 q hfr]

/-- The concrete scenario of spec section 8.6: `x.bin` and `y.bin` hold
the same sixteen zero bytes, `z.bin` holds distinct bytes. -/
def c1Entry : Entry :=
  .dir [("x.bin", .file (List.replicate 16 0)),
        ("y.bin", .file (List.replicate 16 0)),
        ("z.bin", .file [1, 2, 3])]

theorem index_prune_apply_restore_roundtrip_witness :
    plainTree c1Entry = true ∧ uniqueNamesE c1Entry = true ∧
    Entry.isDirE c1Entry = true ∧
    ∃ t t' reg fsA mA fsR,
      index_directory "root" c1Entry = some t ∧
      prune_children [] t [] = some (t', reg) ∧
      apply_changes [] t' (entry_files [] "root" c1Entry) = (fsA, mA, true) ∧
      restore [] t' fsA = (fsR, true) ∧
      ∀ q, fsRead fsR q = fsRead (entry_files [] "root" c1Entry) q :=
  ⟨by decide, by decide, by decide,
    index_prune_apply_restore_roundtrip "root" c1Entry
      (by decide) (by decide) (by decide)⟩
